import Mathlib

/-!
# now.c: a shallow embedding of the task engine

The definitions below follow `src/now.c` function by function.

* A `char` buffer is a `List Char` (one `Char` per byte); a C string is the part of a
  buffer in front of its first `NUL`.
* `int` and `time_t` values are `Int`.  The only arithmetic on a value that comes from
  the storage file is `tasks[task_count - 1].id + 1` (line 237); it is wrapped to 32 bits
  with `int_wrap`.  Loop counters stay below `MAX_TASKS`.
* The task array together with `task_count` is a `List Task`; the slots of the array at
  and after `task_count` are never read by the program.
* The storage file is `Option (List Task)`: `none` is a missing file, `some rs` a file
  holding the records `rs`.
* What the C library supplies (`time`, `strptime`, `mktime`) is a field of `World`;
  the array that `qsort` leaves is a parameter of the listing, and `qsort_result` says
  what the C standard promises of it.
-/

namespace Now

/-! ## Constants (lines 15-25) -/

/-- The size of the description field, line 15. -/
def MAX_DESC : Nat := 512

/-- The capacity of the task array, line 16. -/
def MAX_TASKS : Nat := 1024

/-- The string terminator of C. -/
abbrev NUL : Char := '\x00'

/-- The literal of line 116. -/
def DUE_MARK : List Char := "@due:".toList

/-- The escape sequences of lines 18-25 that the renderer prints. -/
def COLOR_RESET : List Char := "\x1b[0m".toList

def COLOR_CYAN : List Char := "\x1b[36m".toList

def COLOR_BOLD : List Char := "\x1b[1m".toList

def COLOR_ITALIC : List Char := "\x1b[3m".toList

/-- The largest value of a C `int`. -/
def INT_MAX : Int := 2147483647

/-- Reduction of an integer to the range of a 32-bit two's-complement `int`. -/
def int_wrap (x : Int) : Int := (x + 2147483648) % 4294967296 - 2147483648

/-! ## Data model (lines 29-36) -/

/-- The record `Task` of lines 29-36.  `description` is the whole `char[MAX_DESC]` field;
`done` is a C truth value (zero is false). -/
structure Task where
  id : Int
  description : List Char
  created_at : Int
  completed_at : Int
  due_at : Int
  done : Int
deriving DecidableEq, Repr

/-- What the C library contributes to one run of the program.
`time k` is the value returned by the `k`-th call (counted from 0) of `time(NULL)`;
`mktime d` is the result of `strptime(d, "%Y-%m-%d", &tm)` on a zeroed `tm` followed by
`mktime(&tm)`, for the ten characters `d`. -/
structure World where
  time : Nat → Int
  mktime : List Char → Int

/-! ## Record codec (lines 65-84) -/

/-- Lines 65-73: a missing file gives no task, otherwise `fread` takes at most
`max_tasks` whole records. -/
def load_tasks (file : Option (List Task)) (max_tasks : Nat) : List Task :=
  match file with
  | none => []
  | some records => records.take max_tasks

/-- Lines 75-84 when the file can be opened: the file is rewritten with the records of
the collection, in order. -/
def save_tasks (tasks : List Task) : Option (List Task) := some tasks

/-! ## Markdown renderer (lines 91-127) -/

/-- The result of a scan of `print_markdown`. -/
inductive Render where
  /-- The loop of line 94 ended: `out` is what was printed, `rest` the part of the
  buffer from the final position of `p` on. -/
  | ok (out : List Char) (rest : List Char)
  /-- The scan left the buffer (a read, or a pointer moved, behind its end). -/
  | oob
  /-- The model ran out of fuel. -/
  | nofuel
deriving DecidableEq, Repr

/-- Output printed before the scan went on. -/
def Render.emit (pre : List Char) : Render → Render
  | .ok out rest => .ok (pre ++ out) rest
  | .oob => .oob
  | .nofuel => .nofuel

/-- The printed text of a scan that ended. -/
def Render.out : Render → Option (List Char)
  | .ok out _ => some out
  | _ => none

/-- Pointer arithmetic `p += k` inside the buffer. -/
def advance (k : Nat) (p : List Char) : Option (List Char) :=
  if k ≤ p.length then some (p.drop k) else none

/-- Lines 98-99: `while (*p && (*p != '*' || *(p + 1) != '*')) putchar(*p++);`
The result is the text printed and the position reached. -/
def bold_run : List Char → Option (List Char × List Char)
  | [] => none
  | c :: cs =>
    if c = NUL then some ([], c :: cs)
    else if c ≠ '*' then (bold_run cs).map (fun r => (c :: r.1, r.2))
    else
      match cs.head? with
      | none => none
      | some d =>
        if d ≠ '*' then (bold_run cs).map (fun r => (c :: r.1, r.2))
        else some ([], c :: cs)

/-- Lines 105-106 and 112-113: `while (*p && *p != stop) putchar(*p++);` with `stop`
the asterisk or the hash mark. -/
def plain_run (stop : Char) : List Char → Option (List Char × List Char)
  | [] => none
  | c :: cs =>
    if c ≠ NUL ∧ c ≠ stop then (plain_run stop cs).map (fun r => (c :: r.1, r.2))
    else some ([], c :: cs)

/-- Lines 120-121: `while (*p && *p != ' ' && *p != '\t') p++;` -/
def due_skip : List Char → Option (List Char)
  | [] => none
  | c :: cs =>
    if c ≠ NUL ∧ c ≠ ' ' ∧ c ≠ '\t' then due_skip cs
    else some (c :: cs)

/-- The test `strncmp(p, s, n) == 0` for a string `s` of `n` characters, none of them
`NUL`: the characters are compared one by one up to the first difference. -/
def strncmp_eq : List Char → List Char → Option Bool
  | _, [] => some true
  | [], _ :: _ => none
  | c :: cs, d :: ds => if c = d then strncmp_eq cs ds else some false

/-- Lines 96-101, the statements behind the test for `**`. -/
def bold_branch (p : List Char) : Option (List Char × List Char) := do
  let p1 ← advance 2 p
  let (text, p2) ← bold_run p1
  let p3 ← advance 2 p2
  pure (COLOR_BOLD ++ text ++ COLOR_RESET, p3)

/-- Lines 103-108, the statements behind the test for a single `*`. -/
def italic_branch (p : List Char) : Option (List Char × List Char) := do
  let p1 ← advance 1 p
  let (text, p2) ← plain_run '*' p1
  let p3 ← advance 1 p2
  pure (COLOR_ITALIC ++ text ++ COLOR_RESET, p3)

/-- Lines 110-115, the statements behind the test for `##`. -/
def highlight_branch (p : List Char) : Option (List Char × List Char) := do
  let p1 ← advance 2 p
  let (text, p2) ← plain_run '#' p1
  let p3 ← advance 2 p2
  pure (COLOR_CYAN ++ text ++ COLOR_RESET, p3)

/-- Lines 117-123, the statements behind the test for `@due:`.  `description` is the
start of the buffer; `p--` steps back onto the space that was just tested. -/
def due_branch (description p : List Char) : Option (List Char × List Char) := do
  let pos := description.length - p.length
  let p0 := if 0 < pos ∧ description.get? (pos - 1) = some ' ' then ' ' :: p else p
  let p1 ← advance 5 p0
  let p2 ← due_skip p1
  let c2 ← p2.head?
  if c2 = ' ' ∨ c2 = '\t' then
    let p3 ← advance 1 p2
    pure ([], p3)
  else pure ([], p2)

/-- Line 125: `putchar(*p++);` -/
def plain_branch (p : List Char) : Option (List Char × List Char) := do
  let c ← p.head?
  let p1 ← advance 1 p
  pure ([c], p1)

/-- The character `*(p + 1)` of the tests of lines 95, 102 and 109; `&&` reads it only
when `*p` is an asterisk or a hash mark, otherwise the result is not looked at. -/
def peek_next (c : Char) (p : List Char) : Option Char :=
  if c = '*' ∨ c = '#' then p.tail.head? else some NUL

/-- Lines 95-125: one pass through the body of the loop, entered with `*p` not `NUL`;
the result is the text printed and the new position.  `description` is the start of the
buffer and `p` the part of it from the current position on. -/
def print_markdown_body (description p : List Char) : Option (List Char × List Char) :=
  match p.head? with
  | none => none
  | some c =>
    match peek_next c p with
    | none => none
    | some d =>
      if c = '*' ∧ d = '*' then bold_branch p
      else if c = '*' ∧ d ≠ '*' then italic_branch p
      else if c = '#' ∧ d = '#' then highlight_branch p
      else
        match strncmp_eq p DUE_MARK with
        | none => none
        | some true => due_branch description p
        | some false => plain_branch p

/-- Lines 94-126: the loop `while (*p)`, with one unit of fuel for every pass. -/
def print_markdown_loop (description : List Char) : Nat → List Char → Render
  | 0, _ => .nofuel
  | fuel + 1, p =>
    match p.head? with
    | none => .oob
    | some c =>
      if c = NUL then .ok [] p
      else
        match print_markdown_body description p with
        | none => .oob
        | some (out, p1) => (print_markdown_loop description fuel p1).emit out

/-- Lines 91-127.  `description` is the buffer the argument points to, terminator and
the bytes behind it included. -/
def print_markdown (description : List Char) : Render :=
  print_markdown_loop description (description.length + 1) description

/-! ## Due-date extractor (lines 129-147) -/

/-- The bracket expression `[0-9]` of the pattern. -/
def is_digit (c : Char) : Bool := decide ('0' ≤ c ∧ c ≤ '9')

/-- A match of `@due:([0-9]{4}-[0-9]{2}-[0-9]{2})` anchored at the head of `s`; the
result is the text of group 1. -/
def match_due_here (s : List Char) : Option (List Char) :=
  match s with
  | a :: d :: u :: e :: k :: y1 :: y2 :: y3 :: y4 :: h1 :: m1 :: m2 :: h2 :: d1 :: d2 :: _ =>
    if [a, d, u, e, k] = DUE_MARK ∧ h1 = '-' ∧ h2 = '-' ∧
        [y1, y2, y3, y4, m1, m2, d1, d2].all is_digit
    then some [y1, y2, y3, y4, h1, m1, m2, h2, d1, d2]
    else none
  | _ => none

/-- The search of `regexec` (line 135): the leftmost position of the string at which the
pattern matches. -/
def regexec_due : List Char → Option (List Char)
  | [] => none
  | c :: cs =>
    match match_due_here (c :: cs) with
    | some date_str => some date_str
    | none => regexec_due cs

/-- Lines 129-147.  The text searched is the C string held in `desc`; the value stored in
`*due_at` is returned. -/
def parse_due_date (w : World) (desc : List Char) : Int :=
  match regexec_due (desc.takeWhile (fun c => c != NUL)) with
  | some date_str => w.mktime date_str
  | none => 0

/-! ## Task store: add (lines 226-254) -/

/-- The library function `strncpy(dst, src, n)`: the characters of the C string `src`, at
most `n` of them, padded with `NUL` up to `n` bytes. -/
def strncpy (src : List Char) (n : Nat) : List Char :=
  let s := (src.takeWhile (fun c => c != NUL)).take n
  s ++ List.replicate (n - s.length) NUL

/-- Lines 236-245: the task built for one argument, appended to the collection.  `now` is
the value returned by `time(NULL)` on line 239. -/
def add_task (w : World) (tasks : List Task) (arg : List Char) (now : Int) : List Task :=
  let description := strncpy arg MAX_DESC
  tasks ++ [{ id := (match tasks.getLast? with
                     | some last => int_wrap (last.id + 1)
                     | none => 1),
              description := description,
              created_at := now,
              completed_at := 0,
              due_at := parse_due_date w description,
              done := 0 }]

/-- Lines 230-249: the loop over the arguments; `n` counts the calls of `time` made so
far. -/
def add_loop (w : World) : List Task → List (List Char) → Nat → List Task
  | tasks, [], _ => tasks
  | tasks, arg :: args, n =>
    if tasks.length ≥ MAX_TASKS then tasks
    else add_loop w (add_task w tasks arg (w.time n)) args (n + 1)

/-! ## Task store: done (lines 256-289) -/

/-- Lines 274-275: `done = 1; completed_at = time(NULL);` -/
def stamp (t : Task) (now : Int) : Task := { t with done := 1, completed_at := now }

/-- Lines 272-280: the search for the first task with the given id; `none` when no task
has it (`found` stays 0). -/
def mark_done : Int → List Task → Int → Option (List Task)
  | _, [], _ => none
  | now, t :: ts, task_id =>
    if t.id = task_id then some (stamp t now :: ts)
    else (mark_done now ts task_id).map (fun r => t :: r)

/-- Lines 269-284: the loop over the ids; `time` is called only when a task is found. -/
def done_loop (w : World) : List Task → List Int → Nat → List Task
  | tasks, [], _ => tasks
  | tasks, task_id :: ids, n =>
    match mark_done (w.time n) tasks task_id with
    | some tasks1 => done_loop w tasks1 ids (n + 1)
    | none => done_loop w tasks ids n

/-! ## Task store: remove (lines 291-328) -/

/-- Lines 307-316: the first task with the given id is cut out and the tasks behind it
move one slot to the front. -/
def remove_first : List Task → Int → List Task
  | [], _ => []
  | t :: ts, task_id => if t.id = task_id then ts else t :: remove_first ts task_id

/-- Lines 304-320: the loop over the ids. -/
def remove_loop : List Task → List Int → List Task
  | tasks, [] => tasks
  | tasks, task_id :: ids => remove_loop (remove_first tasks task_id) ids

/-- Lines 323-324, from slot `i` on: `tasks[i].id = i + 1`. -/
def renumber : Nat → List Task → List Task
  | _, [] => []
  | i, t :: ts => { t with id := (i : Int) + 1 } :: renumber (i + 1) ts

/-- Lines 304-324: what `remove` hands to `save_tasks`. -/
def remove_tasks (tasks : List Task) (ids : List Int) : List Task :=
  renumber 0 (remove_loop tasks ids)

/-! ## Command dispatcher (lines 218-328) -/

/-- The result of one run: the exit code and, when `save_tasks` was called, the
collection it was called with. -/
structure Outcome where
  exit_code : Int
  saved : Option (List Task)
deriving DecidableEq, Repr

/-- Lines 226-254, `argv[2..]` being `args`. -/
def main_add (w : World) (file : Option (List Task)) (args : List (List Char)) : Outcome :=
  let tasks := load_tasks file MAX_TASKS
  { exit_code := 0, saved := some (add_loop w tasks args 0) }

/-- Lines 256-289, `ids` being the values `atoi` gives for `argv[2..]`. -/
def main_done (w : World) (file : Option (List Task)) (ids : List Int) : Outcome :=
  if ids.length = 0 then { exit_code := 1, saved := none }
  else
    let tasks := load_tasks file MAX_TASKS
    if tasks.length = 0 then { exit_code := 0, saved := none }
    else { exit_code := 0, saved := some (done_loop w tasks ids 0) }

/-- Lines 291-328, `ids` being the values `atoi` gives for `argv[2..]`. -/
def main_remove (file : Option (List Task)) (ids : List Int) : Outcome :=
  if ids.length = 0 then { exit_code := 1, saved := none }
  else
    let tasks := load_tasks file MAX_TASKS
    if tasks.length = 0 then { exit_code := 0, saved := none }
    else { exit_code := 0, saved := some (remove_tasks tasks ids) }

/-- The storage file after a run: rewritten when `save_tasks` was called, untouched
otherwise. -/
def file_after (file : Option (List Task)) (o : Outcome) : Option (List Task) :=
  match o.saved with
  | some tasks => save_tasks tasks
  | none => file

/-- The files that runs of `add`, `done` and `remove` produce, starting with no file or
with an empty one. -/
inductive Reachable : Option (List Task) → Prop
  | missing : Reachable none
  | empty : Reachable (some [])
  | add (w : World) (file : Option (List Task)) (args : List (List Char)) :
      Reachable file → Reachable (file_after file (main_add w file args))
  | done (w : World) (file : Option (List Task)) (ids : List Int) :
      Reachable file → Reachable (file_after file (main_done w file ids))
  | remove (file : Option (List Task)) (ids : List Int) :
      Reachable file → Reachable (file_after file (main_remove file ids))

/-- The fields of a task other than its id. -/
def Task.payload (t : Task) : List Char × Int × Int × Int × Int :=
  (t.description, t.created_at, t.completed_at, t.due_at, t.done)

/-! ## Listing and reporting engine (lines 149-216 and 359-456) -/

/-- Line 159: `!t->done && t->due_at && now > t->due_at`. -/
def is_overdue (now : Int) (t : Task) : Bool :=
  decide (t.done = 0 ∧ t.due_at ≠ 0 ∧ now > t.due_at)

/-- Lines 162-171: the status marker that `print_task` shows; `now` is the value
`time(NULL)` returns on line 158. -/
def status_marker (now : Int) (t : Task) : List Char :=
  if t.done ≠ 0 then "[x]".toList
  else if is_overdue now t = true then "[*]".toList
  else "[ ]".toList

/-- The expression `(a > b) - (a < b)` of lines 193, 204 and 215. -/
def cmp3 (a b : Int) : Int := (if a > b then 1 else 0) - (if a < b then 1 else 0)

/-- Lines 191-194. -/
def cmp_created (x y : Task) : Int := cmp3 x.created_at y.created_at

/-- Lines 196-205. -/
def cmp_completed (x y : Task) : Int :=
  if x.done = 0 ∧ y.done = 0 then 0
  else if x.done = 0 then 1
  else if y.done = 0 then -1
  else cmp3 x.completed_at y.completed_at

/-- Lines 207-216. -/
def cmp_due (x y : Task) : Int :=
  if x.due_at = 0 ∧ y.due_at = 0 then 0
  else if x.due_at = 0 then 1
  else if y.due_at = 0 then -1
  else cmp3 x.due_at y.due_at

/-- The enumeration of lines 362-367. -/
inductive SortKey where
  | SORT_NONE
  | SORT_CREATED
  | SORT_COMPLETED
  | SORT_DUE
deriving DecidableEq, Repr

/-- The variables `raw`, `due`, `completed`, `pending` and `sort_key` of lines 360-367. -/
structure ListFlags where
  raw : Bool
  due : Bool
  completed : Bool
  pending : Bool
  sort_key : SortKey
deriving DecidableEq, Repr

/-- Lines 369-392: the loop over `argv[2..]`; `none` is the exit with code 1 for an
unknown sort key.  An argument that is no flag is passed over. -/
def parse_list_args : List (List Char) → ListFlags → Option ListFlags
  | [], f => some f
  | a :: rest, f =>
    if a = "--raw".toList then parse_list_args rest { f with raw := true }
    else if a = "--due".toList then parse_list_args rest { f with due := true }
    else if a = "--completed".toList then parse_list_args rest { f with completed := true }
    else if a = "--pending".toList then parse_list_args rest { f with pending := true }
    else if a.take 7 = "--sort=".toList then
      let key := a.drop 7
      if key = "created".toList then
        parse_list_args rest { f with sort_key := SortKey.SORT_CREATED }
      else if key = "completed".toList then
        parse_list_args rest { f with sort_key := SortKey.SORT_COMPLETED }
      else if key = "due".toList then
        parse_list_args rest { f with sort_key := SortKey.SORT_DUE }
      else none
    else parse_list_args rest f

/-- Lines 401-406: the array after the sort step.  `qsort cmp tasks` stands for the
array that the library function `qsort` leaves when it is called with `cmp`. -/
def sort_step (qsort : (Task → Task → Int) → List Task → List Task) (key : SortKey)
    (tasks : List Task) : List Task :=
  match key with
  | SortKey.SORT_NONE => tasks
  | SortKey.SORT_CREATED => qsort cmp_created tasks
  | SortKey.SORT_COMPLETED => qsort cmp_completed tasks
  | SortKey.SORT_DUE => qsort cmp_due tasks

/-- Lines 409-418: the tasks that are handed to `print_task`, in the order of the
calls. -/
def list_loop (due completed pending : Bool) : List Task → List Task
  | [] => []
  | t :: ts =>
    if due = true ∧ (t.due_at = 0 ∨ t.done ≠ 0) then list_loop due completed pending ts
    else if completed = true ∧ t.done = 0 then list_loop due completed pending ts
    else if pending = true ∧ t.done ≠ 0 then list_loop due completed pending ts
    else t :: list_loop due completed pending ts

/-- The result of a run of `list`: the exit code and the tasks printed. -/
structure ListOutcome where
  exit_code : Int
  printed : List Task
deriving DecidableEq, Repr

/-- Lines 359-422, `argv[2..]` being `args`. -/
def main_list (qsort : (Task → Task → Int) → List Task → List Task)
    (file : Option (List Task)) (args : List (List Char)) : ListOutcome :=
  match parse_list_args args
      { raw := false, due := false, completed := false, pending := false,
        sort_key := SortKey.SORT_NONE } with
  | none => { exit_code := 1, printed := [] }
  | some f =>
    let tasks := load_tasks file MAX_TASKS
    if tasks.length = 0 then { exit_code := 0, printed := [] }
    else
      { exit_code := 0,
        printed := list_loop f.due f.completed f.pending (sort_step qsort f.sort_key tasks) }

/-- The numbers that `stats` prints: the counters `done` and `overdue` and the value
`next_due` (0 is printed as `none`). -/
structure Stats where
  done : Int
  overdue : Int
  next_due : Int
deriving DecidableEq, Repr

/-- Lines 435-440: the body of the loop, for the task `t`. -/
def stats_step (now : Int) (s : Stats) (t : Task) : Stats :=
  { done := if t.done ≠ 0 then s.done + 1 else s.done,
    overdue :=
      if t.done ≠ 0 then s.overdue
      else if t.due_at ≠ 0 ∧ t.due_at < now then s.overdue + 1
      else s.overdue,
    next_due :=
      if t.due_at ≠ 0 ∧ (s.next_due = 0 ∨ t.due_at < s.next_due) ∧ t.done = 0
      then t.due_at
      else s.next_due }

/-- Lines 434-441: the loop over the tasks, from the given values of the three
variables. -/
def stats_loop (now : Int) : List Task → Stats → Stats
  | [], s => s
  | t :: ts, s => stats_loop now ts (stats_step now s t)

/-- Lines 432-441: the values of `done`, `overdue` and `next_due` behind the loop; `now`
is the value `time(NULL)` returns on line 433. -/
def stats (now : Int) (tasks : List Task) : Stats :=
  stats_loop now tasks { done := 0, overdue := 0, next_due := 0 }

/-- Lines 330-357 as far as the exit code and the storage go: `search` never calls
`save_tasks`. -/
def main_search (file : Option (List Task)) (args : List (List Char)) : Outcome :=
  if args.length = 0 then { exit_code := 1, saved := none }
  else
    let tasks := load_tasks file MAX_TASKS
    if tasks.length = 0 then { exit_code := 0, saved := none }
    else { exit_code := 0, saved := none }

/-! ## Notions used to state the properties -/

/-- No task in front of slot `i` has the id `task_id`: a task with that id in slot `i`
is the first one the search of lines 272-280 meets. -/
def is_first (tasks : List Task) (i : Nat) (task_id : Int) : Bool :=
  (tasks.take i).all (fun u => u.id != task_id)

/-- In the words of the specification: the text `d` is 4 digits, `-`, 2 digits, `-`,
2 digits. -/
def spec_date (d : List Char) : Prop :=
  ∃ y1 y2 y3 y4 m1 m2 d1 d2 : Char,
    is_digit y1 = true ∧ is_digit y2 = true ∧ is_digit y3 = true ∧ is_digit y4 = true
      ∧ is_digit m1 = true ∧ is_digit m2 = true ∧ is_digit d1 = true ∧ is_digit d2 = true
      ∧ d = [y1, y2, y3, y4, '-', m1, m2, '-', d1, d2]

/-- In the words of the specification: at position `i` of the text `s` stands a marker
`@due:` followed by the date text `d`. -/
def spec_marker_at (s : List Char) (i : Nat) (d : List Char) : Prop :=
  spec_date d ∧ ∃ post : List Char, s.drop i = DUE_MARK ++ d ++ post

/-- What the C standard says of the array that `qsort` leaves: the elements of the
array, rearranged so that no element compares greater than a later one. -/
def qsort_result (cmp : Task → Task → Int) (tasks sorted : List Task) : Prop :=
  sorted.Perm tasks ∧ sorted.Pairwise (fun a b => cmp a b ≤ 0)

/-! ## Example data -/

/-- A clock that ticks once for every call, and a date conversion that is not looked at. -/
def sample_world : World := { time := fun k => 1000 + (k : Int), mktime := fun _ => 86400 }

/-- Three tasks with distinct ids that are not in storage order; the first is done. -/
def sample_tasks : List Task :=
  [ { id := 5, description := strncpy "task A".toList MAX_DESC, created_at := 10,
      completed_at := 20, due_at := 0, done := 1 },
    { id := 9, description := strncpy "task B".toList MAX_DESC, created_at := 11,
      completed_at := 0, due_at := 0, done := 0 },
    { id := 2, description := strncpy "task C".toList MAX_DESC, created_at := 12,
      completed_at := 0, due_at := 0, done := 0 } ]

/-- The file after `add "task A" "task B"`, `done 1` and `remove 1`, from no file. -/
def sample_file : Option (List Task) :=
  let f1 := file_after none (main_add sample_world none ["task A".toList, "task B".toList])
  let f2 := file_after f1 (main_done sample_world f1 [1])
  file_after f2 (main_remove f2 [1])

/-- A run in the time zone UTC: local midnight of 1970-01-01 is the time 0, every other
date of the examples lies a day later. -/
def utc_world : World :=
  { time := fun k => 1000 + (k : Int),
    mktime := fun d => if d = "1970-01-01".toList then 0 else 86400 }

/-- A task for the listing examples, with the description `task`. -/
def listing_task (id created_at completed_at due_at done : Int) : Task :=
  { id := id, description := strncpy "task".toList MAX_DESC, created_at := created_at,
    completed_at := completed_at, due_at := due_at, done := done }

/-- Four tasks for the listing examples: done with a due date, pending with a due date
in the past of the time 500, pending without a due date, pending with an earlier due
date. -/
def sample_listing : List Task :=
  [listing_task 1 10 40 300 1, listing_task 2 20 0 200 0, listing_task 3 30 0 0 0,
    listing_task 4 35 0 100 0]

/-- A storage file whose only task has the largest id that an `int` holds. -/
def sample_max_id_file : Option (List Task) :=
  some [listing_task 2147483647 10 0 0 0]

/-- One function that keeps the promise of `qsort` whenever the comparison is total and
transitive: an insertion sort.  It stands for the library function in the examples. -/
def insertion_qsort (cmp : Task → Task → Int) (tasks : List Task) : List Task :=
  tasks.insertionSort (fun a b => cmp a b ≤ 0)

/-! ## Lemmas on remove -/

theorem remove_first_eq_filter (tasks : List Task) (task_id : Int)
    (h : (tasks.map Task.id).Nodup) :
    remove_first tasks task_id = tasks.filter (fun t => decide (t.id ≠ task_id)) := by
  induction tasks with
  | nil => rfl
  | cons t ts ih =>
    simp only [List.map_cons, List.nodup_cons, List.mem_map, not_exists, not_and] at h
    by_cases ht : t.id = task_id
    · have hall : ∀ u ∈ ts, decide (u.id ≠ task_id) = true := by
        intro u hu
        have := h.1 u hu
        simp only [decide_eq_true_eq]
        intro hc
        exact this (hc.trans ht.symm)
      rw [remove_first, if_pos ht, List.filter_cons_of_neg (by simpa using ht)]
      exact (List.filter_eq_self.mpr hall).symm
    · rw [remove_first, if_neg ht, List.filter_cons_of_pos (by simpa using ht), ih h.2]

theorem nodup_ids_filter (tasks : List Task) (keep : Task → Bool)
    (h : (tasks.map Task.id).Nodup) : ((tasks.filter keep).map Task.id).Nodup :=
  h.sublist ((List.filter_sublist tasks).map Task.id)

theorem remove_loop_eq_filter (ids : List Int) :
    ∀ tasks : List Task, (tasks.map Task.id).Nodup →
      remove_loop tasks ids = tasks.filter (fun t => decide (t.id ∉ ids)) := by
  induction ids with
  | nil => intro tasks _; simp [remove_loop]
  | cons a as ih =>
    intro tasks h
    rw [remove_loop, remove_first_eq_filter tasks a h, ih _ (nodup_ids_filter tasks _ h),
      List.filter_filter]
    congr 1
    funext t
    simp [not_or, Bool.and_comm]

theorem renumber_payload (tasks : List Task) :
    ∀ i, (renumber i tasks).map Task.payload = tasks.map Task.payload := by
  induction tasks with
  | nil => intro i; rfl
  | cons t ts ih => intro i; simp [renumber, ih, Task.payload]

theorem renumber_length (tasks : List Task) :
    ∀ i, (renumber i tasks).length = tasks.length := by
  induction tasks with
  | nil => intro i; rfl
  | cons t ts ih => intro i; simp [renumber, ih]

theorem renumber_ids (tasks : List Task) :
    ∀ i, (renumber i tasks).map Task.id
      = (List.range tasks.length).map (fun k => ((i + k : Nat) : Int) + 1) := by
  induction tasks with
  | nil => intro i; rfl
  | cons t ts ih =>
    intro i
    simp only [renumber, List.map_cons, List.length_cons, List.range_succ_eq_map, ih,
      List.map_map, Nat.add_zero]
    congr 1
    apply List.map_congr_left
    intro k _
    simp only [Function.comp_apply]
    congr 2
    omega

/-! ## Lemmas on ids -/

theorem int_wrap_small (n : Nat) (h : n < MAX_TASKS) : int_wrap ((n : Int) + 1) = (n : Int) + 1 := by
  unfold MAX_TASKS at h
  unfold int_wrap
  omega

theorem int_wrap_in_range (x : Int) (h1 : -2147483648 ≤ x) (h2 : x ≤ INT_MAX) :
    int_wrap x = x := by
  unfold INT_MAX at h2
  unfold int_wrap
  omega

theorem range_ids_nodup (n : Nat) :
    ((List.range n).map (fun (i : Nat) => (i : Int) + 1)).Nodup := by
  apply List.Nodup.map _ (List.nodup_range n)
  intro a b hab
  simp only at hab
  omega

theorem range_ids_succ (n : Nat) :
    (List.range (n + 1)).map (fun (i : Nat) => (i : Int) + 1)
      = (List.range n).map (fun (i : Nat) => (i : Int) + 1) ++ [(n : Int) + 1] := by
  rw [List.range_succ, List.map_append]
  rfl

theorem last_id_of_dense (tasks : List Task) (last : Task)
    (hd : tasks.map Task.id = (List.range tasks.length).map (fun (i : Nat) => (i : Int) + 1))
    (hl : tasks.getLast? = some last) :
    0 < tasks.length ∧ last.id = (tasks.length : Int) := by
  rcases List.eq_nil_or_concat tasks with h | ⟨init, b, h⟩
  · subst h; simp at hl
  · rw [List.concat_eq_append] at h
    subst h
    simp only [List.getLast?_concat, Option.some.injEq] at hl
    subst hl
    simp only [List.length_append, List.length_singleton, List.map_append, List.map_cons,
      List.map_nil, range_ids_succ] at hd
    have := List.append_inj_right' hd rfl
    simp only [List.cons.injEq, and_true] at this
    simp [this]

theorem add_task_eq (w : World) (tasks : List Task) (arg : List Char) (now : Int) :
    ∃ t : Task, add_task w tasks arg now = tasks ++ [t]
      ∧ t.id = (match tasks.getLast? with
                | some last => int_wrap (last.id + 1)
                | none => 1)
      ∧ t.description = strncpy arg MAX_DESC ∧ t.created_at = now ∧ t.completed_at = 0
      ∧ t.due_at = parse_due_date w (strncpy arg MAX_DESC) ∧ t.done = 0 :=
  ⟨_, rfl, rfl, rfl, rfl, rfl, rfl, rfl⟩

theorem add_task_dense (w : World) (tasks : List Task) (arg : List Char) (now : Int)
    (hlen : tasks.length < MAX_TASKS)
    (hd : tasks.map Task.id = (List.range tasks.length).map (fun (i : Nat) => (i : Int) + 1)) :
    (add_task w tasks arg now).map Task.id
      = (List.range (add_task w tasks arg now).length).map (fun (i : Nat) => (i : Int) + 1) := by
  obtain ⟨t, ht, hid, -⟩ := add_task_eq w tasks arg now
  rw [ht, List.map_append, List.length_append, List.length_singleton, range_ids_succ, hd]
  congr 1
  simp only [List.map_cons, List.map_nil, List.cons.injEq, and_true]
  rw [hid]
  cases hl : tasks.getLast? with
  | none =>
    have : tasks = [] := List.getLast?_eq_none_iff.mp hl
    subst this
    simp
  | some last =>
    obtain ⟨hpos, hlast⟩ := last_id_of_dense tasks last hd hl
    simp only
    rw [hlast, int_wrap_small _ hlen]

theorem add_task_length (w : World) (tasks : List Task) (arg : List Char) (now : Int) :
    (add_task w tasks arg now).length = tasks.length + 1 := by
  simp [add_task]

theorem add_loop_dense (w : World) (args : List (List Char)) :
    ∀ (tasks : List Task) (n : Nat), tasks.length ≤ MAX_TASKS →
      tasks.map Task.id = (List.range tasks.length).map (fun (i : Nat) => (i : Int) + 1) →
      (add_loop w tasks args n).length ≤ MAX_TASKS ∧
      (add_loop w tasks args n).map Task.id
        = (List.range (add_loop w tasks args n).length).map (fun (i : Nat) => (i : Int) + 1) := by
  induction args with
  | nil => intro tasks n hlen hd; exact ⟨hlen, hd⟩
  | cons a as ih =>
    intro tasks n hlen hd
    rw [add_loop]
    split
    · exact ⟨hlen, hd⟩
    · rename_i hfull
      have hlt : tasks.length < MAX_TASKS := by omega
      apply ih
      · rw [add_task_length]; omega
      · exact add_task_dense w tasks a _ hlt hd

theorem mark_done_ids (now : Int) (task_id : Int) :
    ∀ (tasks r : List Task), mark_done now tasks task_id = some r →
      r.map Task.id = tasks.map Task.id := by
  intro tasks
  induction tasks with
  | nil => intro r h; simp [mark_done] at h
  | cons t ts ih =>
    intro r h
    rw [mark_done] at h
    split at h
    · simp only [Option.some.injEq] at h
      subst h
      rfl
    · simp only [Option.map_eq_some'] at h
      obtain ⟨r1, hr1, rfl⟩ := h
      simp [ih r1 hr1]

theorem done_loop_ids (w : World) (ids : List Int) :
    ∀ (tasks : List Task) (n : Nat),
      (done_loop w tasks ids n).map Task.id = tasks.map Task.id := by
  induction ids with
  | nil => intro tasks n; rfl
  | cons a as ih =>
    intro tasks n
    rw [done_loop]
    split
    · rename_i r hr
      rw [ih, mark_done_ids _ _ _ _ hr]
    · exact ih tasks n

theorem remove_first_length (tasks : List Task) (task_id : Int) :
    (remove_first tasks task_id).length ≤ tasks.length := by
  induction tasks with
  | nil => simp [remove_first]
  | cons t ts ih =>
    rw [remove_first]
    split
    · simp
    · simp only [List.length_cons]; omega

theorem remove_loop_length (ids : List Int) :
    ∀ tasks : List Task, (remove_loop tasks ids).length ≤ tasks.length := by
  induction ids with
  | nil => intro tasks; simp [remove_loop]
  | cons a as ih =>
    intro tasks
    rw [remove_loop]
    exact (ih _).trans (remove_first_length tasks a)

theorem remove_tasks_ids (tasks : List Task) (ids : List Int) :
    (remove_tasks tasks ids).map Task.id
      = (List.range (remove_tasks tasks ids).length).map (fun (i : Nat) => (i : Int) + 1) := by
  rw [remove_tasks, renumber_ids, renumber_length]
  simp

theorem load_tasks_length (file : Option (List Task)) :
    (load_tasks file MAX_TASKS).length ≤ MAX_TASKS := by
  cases file with
  | none => simp [load_tasks]
  | some rs => simp [load_tasks]

theorem dense_after_save (tasks : List Task) (hl : tasks.length ≤ MAX_TASKS)
    (hd : tasks.map Task.id = (List.range tasks.length).map (fun (i : Nat) => (i : Int) + 1)) :
    (∀ rs, save_tasks tasks = some rs → rs.length ≤ MAX_TASKS) ∧
    (load_tasks (save_tasks tasks) MAX_TASKS).map Task.id
      = (List.range (load_tasks (save_tasks tasks) MAX_TASKS).length).map
          (fun (i : Nat) => (i : Int) + 1) := by
  simp only [save_tasks, Option.some.injEq, forall_eq', load_tasks]
  rw [List.take_of_length_le hl]
  exact ⟨hl, hd⟩

/-- The invariant of the storage file: the tasks loaded from it carry the ids
`1, 2, ...` in storage order, and the file holds no more than `MAX_TASKS` records. -/
theorem reachable_dense (file : Option (List Task)) (h : Reachable file) :
    (∀ rs, file = some rs → rs.length ≤ MAX_TASKS) ∧
    (load_tasks file MAX_TASKS).map Task.id
      = (List.range (load_tasks file MAX_TASKS).length).map (fun (i : Nat) => (i : Int) + 1) := by
  induction h with
  | missing => simp [load_tasks]
  | empty => simp [load_tasks]
  | add w file args _ ih =>
    obtain ⟨hl, hd⟩ := add_loop_dense w args (load_tasks file MAX_TASKS) 0
      (load_tasks_length file) ih.2
    exact dense_after_save _ hl hd
  | done w file ids _ ih =>
    by_cases h1 : ids.length = 0
    · simpa [main_done, h1, file_after] using ih
    · by_cases h2 : (load_tasks file MAX_TASKS).length = 0
      · simpa [main_done, h1, h2, file_after] using ih
      · have hids := done_loop_ids w ids (load_tasks file MAX_TASKS) 0
        have hlen : (done_loop w (load_tasks file MAX_TASKS) ids 0).length
            = (load_tasks file MAX_TASKS).length := by
          simpa using congrArg List.length hids
        have hl : (done_loop w (load_tasks file MAX_TASKS) ids 0).length ≤ MAX_TASKS :=
          hlen ▸ load_tasks_length file
        have hfile : file_after file (main_done w file ids)
            = save_tasks (done_loop w (load_tasks file MAX_TASKS) ids 0) := by
          simp only [main_done, h1, h2, file_after, if_false]
        rw [hfile]
        exact dense_after_save _ hl (by rw [hids, hlen]; exact ih.2)
  | remove file ids _ ih =>
    by_cases h1 : ids.length = 0
    · simpa [main_remove, h1, file_after] using ih
    · by_cases h2 : (load_tasks file MAX_TASKS).length = 0
      · simpa [main_remove, h1, h2, file_after] using ih
      · have hl : (remove_tasks (load_tasks file MAX_TASKS) ids).length ≤ MAX_TASKS := by
          rw [remove_tasks, renumber_length]
          exact (remove_loop_length ids _).trans (load_tasks_length file)
        have hfile : file_after file (main_remove file ids)
            = save_tasks (remove_tasks (load_tasks file MAX_TASKS) ids) := by
          simp only [main_remove, h1, h2, file_after, if_false]
        rw [hfile]
        exact dense_after_save _ hl (remove_tasks_ids _ ids)

/-! ## Lemmas on add -/

theorem add_loop_appends (w : World) (args : List (List Char)) :
    ∀ (tasks : List Task) (n : Nat), tasks.length ≤ MAX_TASKS →
      ∃ new : List Task, add_loop w tasks args n = tasks ++ new
        ∧ new.length = min args.length (MAX_TASKS - tasks.length)
        ∧ new.map Task.description = (args.take new.length).map (fun a => strncpy a MAX_DESC) := by
  induction args with
  | nil => intro tasks n _; exact ⟨[], by simp [add_loop]⟩
  | cons a as ih =>
    intro tasks n hlen
    rw [add_loop]
    split
    · rename_i hfull
      refine ⟨[], by simp, ?_, by simp⟩
      simp only [List.length_nil, List.length_cons]
      omega
    · rename_i hfull
      obtain ⟨t, ht, -, hdesc, -⟩ := add_task_eq w tasks a (w.time n)
      obtain ⟨new, hnew, hlen1, hdesc1⟩ := ih (add_task w tasks a (w.time n)) (n + 1)
        (by rw [add_task_length]; omega)
      refine ⟨t :: new, ?_, ?_, ?_⟩
      · rw [hnew, ht]; simp
      · rw [add_task_length] at hlen1
        simp only [List.length_cons, hlen1]
        omega
      · simp [hdesc, hdesc1]

/-! ## Lemmas on done -/

theorem is_first_zero (tasks : List Task) (x : Int) : is_first tasks 0 x = true := by
  simp [is_first]

theorem is_first_succ (t : Task) (ts : List Task) (k : Nat) (x : Int) :
    is_first (t :: ts) (k + 1) x = ((t.id != x) && is_first ts k x) := by
  simp [is_first]

theorem is_first_congr (tasks tasks1 : List Task) (h : tasks1.map Task.id = tasks.map Task.id)
    (i : Nat) (x : Int) : is_first tasks1 i x = is_first tasks i x := by
  have key : ∀ l : List Task,
      is_first l i x = ((l.map Task.id).take i).all (fun a => a != x) := by
    intro l
    rw [is_first, ← List.map_take]
    induction l.take i with
    | nil => rfl
    | cons a m ih => simp only [List.all_cons, List.map_cons, ih]
  rw [key, key, h]

theorem mark_done_none (now : Int) (x : Int) :
    ∀ tasks : List Task, mark_done now tasks x = none → ∀ t ∈ tasks, t.id ≠ x := by
  intro tasks
  induction tasks with
  | nil => intro _ t ht; simp at ht
  | cons t0 ts ih =>
    intro h t ht
    rw [mark_done] at h
    split at h
    · simp at h
    · rename_i hne
      simp only [Option.map_eq_none'] at h
      rcases List.mem_cons.mp ht with rfl | hmem
      · exact hne
      · exact ih h t hmem

theorem mark_done_get (now : Int) (x : Int) :
    ∀ (tasks r : List Task), mark_done now tasks x = some r →
      ∀ (i : Nat) (t : Task), tasks[i]? = some t →
        r[i]? = some (if t.id = x ∧ is_first tasks i x = true then stamp t now else t) := by
  intro tasks
  induction tasks with
  | nil => intro r h; simp [mark_done] at h
  | cons t0 ts ih =>
    intro r h i t hi
    rw [mark_done] at h
    split at h
    · rename_i heq
      simp only [Option.some.injEq] at h
      subst h
      cases i with
      | zero =>
        simp only [List.getElem?_cons_zero, Option.some.injEq] at hi
        subst hi
        simp [heq, is_first_zero]
      | succ k =>
        simp only [List.getElem?_cons_succ] at hi
        simp [is_first_succ, heq, hi]
    · rename_i hne
      simp only [Option.map_eq_some'] at h
      obtain ⟨r1, hr1, rfl⟩ := h
      cases i with
      | zero =>
        simp only [List.getElem?_cons_zero, Option.some.injEq] at hi
        subst hi
        simp [hne]
      | succ k =>
        simp only [List.getElem?_cons_succ] at hi
        simp only [List.getElem?_cons_succ, ih r1 hr1 k t hi, is_first_succ]
        simp [hne]

theorem mark_done_of_absent (now : Int) (x : Int) :
    ∀ tasks : List Task, (∀ t ∈ tasks, t.id ≠ x) → mark_done now tasks x = none := by
  intro tasks
  induction tasks with
  | nil => intro _; rfl
  | cons t0 ts ih =>
    intro h
    rw [mark_done, if_neg (h t0 (List.mem_cons_self _ _)),
      ih (fun t ht => h t (List.mem_cons_of_mem _ ht))]
    rfl

theorem done_loop_skip (w : World) (tasks : List Task) (x : Int) (ids : List Int) (n : Nat)
    (h : ∀ t ∈ tasks, t.id ≠ x) :
    done_loop w tasks (x :: ids) n = done_loop w tasks ids n := by
  rw [done_loop, mark_done_of_absent _ _ _ h]

theorem done_loop_get (w : World) (ids : List Int) :
    ∀ (tasks : List Task) (n i : Nat) (t : Task), tasks[i]? = some t →
      ∃ t1 : Task, (done_loop w tasks ids n)[i]? = some t1
        ∧ t1.id = t.id ∧ t1.description = t.description
        ∧ t1.created_at = t.created_at ∧ t1.due_at = t.due_at
        ∧ ((t.id ∈ ids ∧ is_first tasks i t.id = true) →
            t1.done = 1 ∧ ∃ k, n ≤ k ∧ k < n + ids.length ∧ t1.completed_at = w.time k)
        ∧ (¬ (t.id ∈ ids ∧ is_first tasks i t.id = true) → t1 = t) := by
  induction ids with
  | nil =>
    intro tasks n i t hi
    exact ⟨t, by simpa [done_loop] using hi, rfl, rfl, rfl, rfl, by simp, fun _ => rfl⟩
  | cons x rest ih =>
    intro tasks n i t hi
    cases hm : mark_done (w.time n) tasks x with
    | none =>
      have hne : t.id ≠ x := mark_done_none _ _ _ hm t (List.getElem?_mem hi)
      obtain ⟨t1, h1, h2, h3, h4, h5, h6, h7⟩ := ih tasks n i t hi
      refine ⟨t1, by rw [done_loop, hm]; exact h1, h2, h3, h4, h5, ?_, ?_⟩
      · rintro ⟨hmem, hf⟩
        have hmem1 : t.id ∈ rest := by
          rcases List.mem_cons.mp hmem with h | h
          · exact absurd h hne
          · exact h
        obtain ⟨hd, k, hk1, hk2, hk3⟩ := h6 ⟨hmem1, hf⟩
        exact ⟨hd, k, hk1, by simp only [List.length_cons]; omega, hk3⟩
      · intro hnot
        exact h7 (fun hc => hnot ⟨List.mem_cons_of_mem _ hc.1, hc.2⟩)
    | some tasks1 =>
      have hget := mark_done_get _ _ _ _ hm i t hi
      have hids := mark_done_ids _ _ _ _ hm
      obtain ⟨t1, h1, h2, h3, h4, h5, h6, h7⟩ := ih tasks1 (n + 1) i _ hget
      have hsame : ∀ u : Task,
          u = (if t.id = x ∧ is_first tasks i x = true then stamp t (w.time n) else t) →
          u.id = t.id ∧ u.description = t.description ∧ u.created_at = t.created_at
            ∧ u.due_at = t.due_at := by
        intro u hu
        subst hu
        split
        · exact ⟨rfl, rfl, rfl, rfl⟩
        · exact ⟨rfl, rfl, rfl, rfl⟩
      obtain ⟨e1, e2, e3, e4⟩ := hsame _ rfl
      rw [e1, is_first_congr tasks tasks1 hids] at h6 h7
      refine ⟨t1, by rw [done_loop, hm]; exact h1, h2.trans e1, h3.trans e2, h4.trans e3,
        h5.trans e4, ?_, ?_⟩
      · rintro ⟨hmem, hf⟩
        by_cases hr : t.id ∈ rest
        · obtain ⟨hd, k, hk1, hk2, hk3⟩ := h6 ⟨hr, hf⟩
          exact ⟨hd, k, by omega, by simp only [List.length_cons]; omega, hk3⟩
        · have hx : t.id = x := by
            rcases List.mem_cons.mp hmem with h | h
            · exact h
            · exact absurd h hr
          have ht1 := h7 (fun hc => hr hc.1)
          rw [if_pos ⟨hx, hx ▸ hf⟩] at ht1
          rw [ht1]
          exact ⟨rfl, n, le_refl _, by simp only [List.length_cons]; omega, rfl⟩
      · intro hnot
        have ht1 := h7 (fun hc => hnot ⟨List.mem_cons_of_mem _ hc.1, hc.2⟩)
        rw [ht1]
        apply if_neg
        rintro ⟨hx, hf⟩
        exact hnot ⟨hx ▸ List.mem_cons_self _ _, hx ▸ hf⟩

/-! ## Lemmas on the renderer -/

theorem advance_length (k : Nat) (p q : List Char) (h : advance k p = some q) :
    q.length + k = p.length := by
  unfold advance at h
  split at h
  · simp only [Option.some.injEq] at h
    subst h
    simp only [List.length_drop]
    omega
  · simp at h

theorem bold_run_length :
    ∀ (p text q : List Char), bold_run p = some (text, q) → q.length ≤ p.length := by
  intro p
  induction p with
  | nil => intro text q h; simp [bold_run] at h
  | cons c cs ih =>
    intro text q h
    rw [bold_run] at h
    split at h
    · simp only [Option.some.injEq, Prod.mk.injEq] at h
      rw [← h.2]
    · split at h
      · simp only [Option.map_eq_some', Prod.mk.injEq] at h
        obtain ⟨r, hr, -, rfl⟩ := h
        have := ih r.1 r.2 hr
        simp only [List.length_cons]
        omega
      · split at h
        · simp at h
        · split at h
          · simp only [Option.map_eq_some', Prod.mk.injEq] at h
            obtain ⟨r, hr, -, rfl⟩ := h
            have := ih r.1 r.2 hr
            simp only [List.length_cons]
            omega
          · simp only [Option.some.injEq, Prod.mk.injEq] at h
            rw [← h.2]

theorem plain_run_length (stop : Char) :
    ∀ (p text q : List Char), plain_run stop p = some (text, q) → q.length ≤ p.length := by
  intro p
  induction p with
  | nil => intro text q h; simp [plain_run] at h
  | cons c cs ih =>
    intro text q h
    rw [plain_run] at h
    split at h
    · simp only [Option.map_eq_some', Prod.mk.injEq] at h
      obtain ⟨r, hr, -, rfl⟩ := h
      have := ih r.1 r.2 hr
      simp only [List.length_cons]
      omega
    · simp only [Option.some.injEq, Prod.mk.injEq] at h
      rw [← h.2]

theorem due_skip_length :
    ∀ (p q : List Char), due_skip p = some q → q.length ≤ p.length := by
  intro p
  induction p with
  | nil => intro q h; simp [due_skip] at h
  | cons c cs ih =>
    intro q h
    rw [due_skip] at h
    split at h
    · have := ih q h
      simp only [List.length_cons]
      omega
    · simp only [Option.some.injEq] at h
      rw [← h]

theorem strncmp_eq_true (s : List Char) :
    ∀ p : List Char, strncmp_eq p s = some true → ∃ q, p = s ++ q := by
  induction s with
  | nil => intro p _; exact ⟨p, rfl⟩
  | cons d ds ih =>
    intro p h
    cases p with
    | nil => simp [strncmp_eq] at h
    | cons c cs =>
      rw [strncmp_eq] at h
      split at h
      · rename_i hc
        obtain ⟨q, hq⟩ := ih cs h
        exact ⟨q, by rw [hc, hq]; rfl⟩
      · simp at h

theorem strncmp_eq_append (s q : List Char) : strncmp_eq (s ++ q) s = some true := by
  induction s with
  | nil => cases q <;> rfl
  | cons d ds ih => simp [strncmp_eq, ih]

theorem strncmp_eq_head (c : Char) (cs : List Char) (d : Char) (ds : List Char) (h : c ≠ d) :
    strncmp_eq (c :: cs) (d :: ds) = some false := by
  simp [strncmp_eq, h]

/-- The step `p--` of line 118 does not change where the marker ends: both positions
lead to the same place behind `@due:` and the token. -/
theorem due_step_back (q : List Char) (back : Bool) :
    (advance 5 (if back = true then ' ' :: (DUE_MARK ++ q) else DUE_MARK ++ q)).bind
        due_skip = due_skip q := by
  have e : DUE_MARK = ['@', 'd', 'u', 'e', ':'] := rfl
  cases back
  · simp [e, advance]
  · simp [e, advance, due_skip, NUL]

theorem due_branch_eq (d q : List Char) :
    due_branch d (DUE_MARK ++ q)
      = (due_skip q).bind (fun p2 => p2.head?.bind (fun c2 =>
          if c2 = ' ' ∨ c2 = '\t' then (advance 1 p2).bind (fun p3 => some ([], p3))
          else some ([], p2))) := by
  have h := due_step_back q
    (decide (0 < d.length - (DUE_MARK ++ q).length
      ∧ d.get? (d.length - (DUE_MARK ++ q).length - 1) = some ' '))
  simp only [decide_eq_true_eq] at h
  simp only [due_branch, bind, pure, ← h]
  cases advance 5 _ <;> rfl

theorem body_indep (d1 d2 p : List Char) :
    print_markdown_body d1 p = print_markdown_body d2 p := by
  cases hs : strncmp_eq p DUE_MARK with
  | none => simp only [print_markdown_body, hs]
  | some b =>
    cases b with
    | false => simp only [print_markdown_body, hs]
    | true =>
      obtain ⟨q, rfl⟩ := strncmp_eq_true _ _ hs
      simp only [print_markdown_body, hs, due_branch_eq]

theorem bold_branch_length (p out p1 : List Char) (h : bold_branch p = some (out, p1)) :
    p1.length < p.length := by
  simp only [bold_branch, bind, pure, Option.bind_eq_some, Option.some.injEq, Prod.mk.injEq,
    Prod.exists] at h
  obtain ⟨a, ha, text, q, hq, p3, hp3, -, rfl⟩ := h
  have h1 := advance_length _ _ _ ha
  have h2 := bold_run_length _ _ _ hq
  have h3 := advance_length _ _ _ hp3
  omega

theorem italic_branch_length (p out p1 : List Char) (h : italic_branch p = some (out, p1)) :
    p1.length < p.length := by
  simp only [italic_branch, bind, pure, Option.bind_eq_some, Option.some.injEq, Prod.mk.injEq,
    Prod.exists] at h
  obtain ⟨a, ha, text, q, hq, p3, hp3, -, rfl⟩ := h
  have h1 := advance_length _ _ _ ha
  have h2 := plain_run_length _ _ _ _ hq
  have h3 := advance_length _ _ _ hp3
  omega

theorem highlight_branch_length (p out p1 : List Char)
    (h : highlight_branch p = some (out, p1)) : p1.length < p.length := by
  simp only [highlight_branch, bind, pure, Option.bind_eq_some, Option.some.injEq,
    Prod.mk.injEq, Prod.exists] at h
  obtain ⟨a, ha, text, q, hq, p3, hp3, -, rfl⟩ := h
  have h1 := advance_length _ _ _ ha
  have h2 := plain_run_length _ _ _ _ hq
  have h3 := advance_length _ _ _ hp3
  omega

theorem plain_branch_length (p out p1 : List Char) (h : plain_branch p = some (out, p1)) :
    p1.length < p.length := by
  simp only [plain_branch, bind, pure, Option.bind_eq_some, Option.some.injEq, Prod.mk.injEq] at h
  obtain ⟨c, -, a, ha, -, rfl⟩ := h
  have h1 := advance_length _ _ _ ha
  omega

theorem due_branch_length (d q out p1 : List Char)
    (h : due_branch d (DUE_MARK ++ q) = some (out, p1)) :
    p1.length < (DUE_MARK ++ q).length := by
  rw [due_branch_eq] at h
  simp only [Option.bind_eq_some] at h
  obtain ⟨p2, hp2, c2, -, h⟩ := h
  have h2 := due_skip_length _ _ hp2
  have e : (DUE_MARK ++ q).length = q.length + 5 := by
    rw [List.length_append]; simp [DUE_MARK]; omega
  split at h
  · simp only [Option.bind_eq_some, Option.some.injEq, Prod.mk.injEq] at h
    obtain ⟨p3, hp3, -, rfl⟩ := h
    have h3 := advance_length _ _ _ hp3
    omega
  · simp only [Option.some.injEq, Prod.mk.injEq] at h
    obtain ⟨-, rfl⟩ := h
    omega

theorem body_length (d p out p1 : List Char) (h : print_markdown_body d p = some (out, p1)) :
    p1.length < p.length := by
  unfold print_markdown_body at h
  split at h
  · simp at h
  · split at h
    · simp at h
    · split at h
      · exact bold_branch_length _ _ _ h
      · split at h
        · exact italic_branch_length _ _ _ h
        · split at h
          · exact highlight_branch_length _ _ _ h
          · split at h
            · simp at h
            · rename_i hb
              obtain ⟨q, rfl⟩ := strncmp_eq_true _ _ hb
              exact due_branch_length _ _ _ _ h
            · exact plain_branch_length _ _ _ h

theorem loop_fuel (d : List Char) :
    ∀ (f : Nat) (p : List Char) (f1 : Nat), p.length < f → p.length < f1 →
      print_markdown_loop d f p = print_markdown_loop d f1 p := by
  intro f
  induction f with
  | zero => intro p f1 h; omega
  | succ f ih =>
    intro p f1 h h1
    cases f1 with
    | zero => omega
    | succ f1 =>
      simp only [print_markdown_loop]
      cases hh : p.head? with
      | none => rfl
      | some c =>
        simp only
        split
        · rfl
        · cases hb : print_markdown_body d p with
          | none => rfl
          | some r =>
            obtain ⟨out, p1⟩ := r
            have := body_length d p out p1 hb
            simp only
            rw [ih p1 f1 (by omega) (by omega)]

theorem loop_indep (d1 d2 : List Char) :
    ∀ (f : Nat) (p : List Char), print_markdown_loop d1 f p = print_markdown_loop d2 f p := by
  intro f
  induction f with
  | zero => intro p; rfl
  | succ f ih =>
    intro p
    simp only [print_markdown_loop, body_indep d1 d2 p, ih]

/-- Any call of the loop with enough fuel is the scan of `print_markdown` from `p`. -/
theorem loop_eq_print (d : List Char) (f : Nat) (p : List Char) (h : p.length < f) :
    print_markdown_loop d f p = print_markdown p := by
  rw [print_markdown, loop_indep d p f p]
  exact loop_fuel p f p _ h (by omega)

theorem emit_ne_nofuel (out : List Char) (r : Render) (h : r ≠ .nofuel) :
    r.emit out ≠ .nofuel := by
  cases r <;> simp [Render.emit] at h ⊢

theorem loop_enough_fuel (d : List Char) :
    ∀ (f : Nat) (p : List Char), p.length < f → print_markdown_loop d f p ≠ .nofuel := by
  intro f
  induction f with
  | zero => intro p h; omega
  | succ f ih =>
    intro p h
    rw [print_markdown_loop]
    split
    · simp
    · split
      · simp
      · split
        · simp
        · rename_i out p1 hb
          have := body_length d p out p1 hb
          exact emit_ne_nofuel _ _ (ih p1 (by omega))

/-- The fuel that `print_markdown` hands to the loop is always enough: the scan ends
with a result or leaves the buffer. -/
theorem print_markdown_fuel (description : List Char) :
    print_markdown description ≠ .nofuel :=
  loop_enough_fuel description _ description (by omega)

theorem print_nul (q : List Char) : print_markdown (NUL :: q) = .ok [] (NUL :: q) := by
  simp [print_markdown, print_markdown_loop]

theorem print_step (c : Char) (cs out p1 : List Char) (hc : c ≠ NUL)
    (hb : print_markdown_body [] (c :: cs) = some (out, p1)) :
    print_markdown (c :: cs) = (print_markdown p1).emit out := by
  have hl := body_length _ _ _ _ hb
  rw [print_markdown, print_markdown_loop]
  simp only [List.head?_cons, if_neg hc, body_indep (c :: cs) [] (c :: cs), hb]
  rw [loop_eq_print _ _ _ (by simpa using hl)]


theorem emit_emit (a b : List Char) (r : Render) : (r.emit b).emit a = r.emit (a ++ b) := by
  cases r <;> simp [Render.emit]

theorem emit_nil (r : Render) : r.emit [] = r := by
  cases r <;> simp [Render.emit]

theorem bold_run_stop (t mem : List Char) (h : ∀ c ∈ t, c ≠ '*' ∧ c ≠ NUL) :
    bold_run (t ++ '*' :: '*' :: mem) = some (t, '*' :: '*' :: mem) := by
  induction t with
  | nil => simp [bold_run, NUL]
  | cons c cs ih =>
    have hc := h c (List.mem_cons_self _ _)
    have ih1 := ih (fun x hx => h x (List.mem_cons_of_mem _ hx))
    simp [bold_run, hc.1, hc.2, ih1]

theorem plain_run_stop (stop : Char) (t mem : List Char) (h : ∀ c ∈ t, c ≠ stop ∧ c ≠ NUL) :
    plain_run stop (t ++ stop :: mem) = some (t, stop :: mem) := by
  induction t with
  | nil => simp [plain_run]
  | cons c cs ih =>
    have hc := h c (List.mem_cons_self _ _)
    have ih1 := ih (fun x hx => h x (List.mem_cons_of_mem _ hx))
    simp [plain_run, hc.1, hc.2, ih1]

theorem due_skip_stop (tok mem : List Char) (h : ∀ c ∈ tok, c ≠ ' ' ∧ c ≠ '\t' ∧ c ≠ NUL) :
    due_skip (tok ++ NUL :: mem) = some (NUL :: mem) := by
  induction tok with
  | nil => simp [due_skip]
  | cons c cs ih =>
    have hc := h c (List.mem_cons_self _ _)
    have ih1 := ih (fun x hx => h x (List.mem_cons_of_mem _ hx))
    simp [due_skip, hc.1, hc.2.1, hc.2.2, ih1]

theorem print_bold (t mem : List Char) (h : ∀ c ∈ t, c ≠ '*' ∧ c ≠ NUL) :
    print_markdown ('*' :: '*' :: (t ++ '*' :: '*' :: mem))
      = (print_markdown mem).emit (COLOR_BOLD ++ t ++ COLOR_RESET) := by
  apply print_step _ _ _ _ (by decide)
  simp [print_markdown_body, peek_next, bold_branch, advance, bold_run_stop t mem h]

theorem print_italic (t mem : List Char) (h : ∀ c ∈ t, c ≠ '*' ∧ c ≠ NUL) (hne : t ≠ []) :
    print_markdown ('*' :: (t ++ '*' :: mem))
      = (print_markdown mem).emit (COLOR_ITALIC ++ t ++ COLOR_RESET) := by
  apply print_step _ _ _ _ (by decide)
  cases t with
  | nil => exact absurd rfl hne
  | cons c cs =>
    have hc := h c (List.mem_cons_self _ _)
    have hr := plain_run_stop '*' (c :: cs) mem h
    simp only [List.cons_append] at hr
    simp [print_markdown_body, peek_next, italic_branch, advance, hc.1, hr]

theorem print_highlight (t : List Char) (c : Char) (mem : List Char)
    (h : ∀ c ∈ t, c ≠ '#' ∧ c ≠ NUL) :
    print_markdown ('#' :: '#' :: (t ++ '#' :: c :: mem))
      = (print_markdown mem).emit (COLOR_CYAN ++ t ++ COLOR_RESET) := by
  apply print_step _ _ _ _ (by decide)
  simp [print_markdown_body, peek_next, highlight_branch, advance, plain_run_stop '#' t _ h]

theorem print_plain_char (c : Char) (q : List Char)
    (h : c ≠ '*' ∧ c ≠ '#' ∧ c ≠ '@' ∧ c ≠ NUL) :
    print_markdown (c :: q) = (print_markdown q).emit [c] := by
  apply print_step _ _ _ _ h.2.2.2
  have hs : strncmp_eq (c :: q) DUE_MARK = some false :=
    strncmp_eq_head c q '@' _ h.2.2.1
  simp [print_markdown_body, peek_next, h.1, h.2.1, hs, plain_branch, advance]

theorem print_plain (s q : List Char) (h : ∀ c ∈ s, c ≠ '*' ∧ c ≠ '#' ∧ c ≠ '@' ∧ c ≠ NUL) :
    print_markdown (s ++ q) = (print_markdown q).emit s := by
  induction s with
  | nil => simp [emit_nil]
  | cons c cs ih =>
    rw [List.cons_append, print_plain_char c _ (h c (List.mem_cons_self _ _)),
      ih (fun x hx => h x (List.mem_cons_of_mem _ hx)), emit_emit]
    rfl

theorem print_due_at_end (tok mem : List Char) (h : ∀ c ∈ tok, c ≠ ' ' ∧ c ≠ '\t' ∧ c ≠ NUL) :
    print_markdown (DUE_MARK ++ (tok ++ NUL :: mem)) = .ok [] (NUL :: mem) := by
  have hb : print_markdown_body [] (DUE_MARK ++ (tok ++ NUL :: mem)) = some ([], NUL :: mem) := by
    have hs := strncmp_eq_append DUE_MARK (tok ++ NUL :: mem)
    have hh : (DUE_MARK ++ (tok ++ NUL :: mem)).head? = some '@' := rfl
    simp only [print_markdown_body, hh, peek_next, hs, due_branch_eq, due_skip_stop tok mem h]
    simp [NUL]
  have e : DUE_MARK ++ (tok ++ NUL :: mem) = '@' :: ("due:".toList ++ (tok ++ NUL :: mem)) := rfl
  rw [e] at hb ⊢
  rw [print_step _ _ _ _ (by decide) hb, print_nul]
  rfl

/-! ## The claims -/

/-- C1: for a collection whose ids are pairwise distinct and any list of ids, `remove`
leaves exactly the tasks whose original id is not in the list, in their original order
and with every field other than the id unchanged. -/
theorem remove_keeps_unlisted (tasks : List Task) (ids : List Int)
    (h : (tasks.map Task.id).Nodup) :
    (remove_tasks tasks ids).map Task.payload
      = (tasks.filter (fun t => decide (t.id ∉ ids))).map Task.payload := by
  rw [remove_tasks, renumber_payload, remove_loop_eq_filter ids tasks h]

/-- C2: after `remove` the `N` remaining tasks carry the ids `1, 2, ..., N` in storage
order, whatever the ids of the collection and the ids listed were. -/
theorem remove_renumbers (tasks : List Task) (ids : List Int) :
    (remove_tasks tasks ids).map Task.id
      = (List.range (remove_tasks tasks ids).length).map (fun (i : Nat) => (i : Int) + 1) :=
  remove_tasks_ids tasks ids

/-- C1, at a concrete input: ids 9 and 9 again and the unknown id 7 are removed from
`sample_tasks`. -/
theorem remove_keeps_unlisted_witness :
    (sample_tasks.map Task.id).Nodup ∧
    (remove_tasks sample_tasks [9, 7, 9]).map Task.payload
      = (sample_tasks.filter (fun t => decide (t.id ∉ [9, 7, 9]))).map Task.payload :=
  ⟨by decide, remove_keeps_unlisted sample_tasks [9, 7, 9] (by decide)⟩

/-- C3: every collection that runs of `add`, `done` and `remove` produce from no file
or an empty one has pairwise distinct ids; the task in slot `i` has the id `i + 1`. -/
theorem ids_unique_when_reachable (file : Option (List Task)) (h : Reachable file) :
    ((load_tasks file MAX_TASKS).map Task.id).Nodup ∧
    (load_tasks file MAX_TASKS).map Task.id
      = (List.range (load_tasks file MAX_TASKS).length).map (fun (i : Nat) => (i : Int) + 1) := by
  have hd := (reachable_dense file h).2
  refine ⟨?_, hd⟩
  rw [hd]
  exact range_ids_nodup _

/-- C3, at a concrete input: the file after `add "task A" "task B"`, `done 1`,
`remove 1`. -/
theorem ids_unique_when_reachable_witness :
    Reachable sample_file ∧
    ((load_tasks sample_file MAX_TASKS).map Task.id).Nodup ∧
    (load_tasks sample_file MAX_TASKS).map Task.id
      = (List.range (load_tasks sample_file MAX_TASKS).length).map
          (fun (i : Nat) => (i : Int) + 1) :=
  have hr : Reachable sample_file :=
    Reachable.remove _ [1] (Reachable.done sample_world _ [1]
      (Reachable.add sample_world none ["task A".toList, "task B".toList] Reachable.missing))
  ⟨hr, ids_unique_when_reachable sample_file hr⟩

/-- C4 fails as stated: the last task of `sample_max_id_file` has the id 2147483647,
and the task that `add` appends gets the id -2147483648, not 2147483648. -/
theorem add_id_overflow_counterexample :
    (load_tasks sample_max_id_file MAX_TASKS).map Task.id = [2147483647]
    ∧ ((main_add sample_world sample_max_id_file ["x".toList]).saved).map (List.map Task.id)
        = some [2147483647, -2147483648] := by
  set_option maxRecDepth 100000 in decide

/-- C4 as amended: on a collection of fewer than 1024 tasks whose last task has an id
below the largest `int`, `add` with one description saves the old collection followed
by one new task; its id is 1 for an empty collection and otherwise the id of the last
task plus 1, its done flag and completed_at are 0 and its created_at is the value of
the clock. -/
theorem add_one_appends (w : World) (file : Option (List Task)) (arg : List Char)
    (h : (load_tasks file MAX_TASKS).length < MAX_TASKS)
    (hid : ∀ last, (load_tasks file MAX_TASKS).getLast? = some last →
      -2147483648 ≤ last.id ∧ last.id < INT_MAX) :
    ∃ t : Task,
      (main_add w file [arg]).saved = some (load_tasks file MAX_TASKS ++ [t])
      ∧ (load_tasks file MAX_TASKS = [] → t.id = 1)
      ∧ (∀ last, (load_tasks file MAX_TASKS).getLast? = some last → t.id = last.id + 1)
      ∧ t.done = 0 ∧ t.completed_at = 0 ∧ t.created_at = w.time 0 := by
  obtain ⟨t, ht, hidt, -, hc, hcomp, -, hdone⟩ :=
    add_task_eq w (load_tasks file MAX_TASKS) arg (w.time 0)
  refine ⟨t, ?_, ?_, ?_, hdone, hcomp, hc⟩
  · have hnot : ¬ (load_tasks file MAX_TASKS).length ≥ MAX_TASKS := by omega
    simp only [main_add, add_loop, if_neg hnot, ht]
  · intro hnil
    rw [hidt, hnil]
    rfl
  · intro last hlast
    obtain ⟨h1, h2⟩ := hid last hlast
    rw [hlast] at hidt
    rw [hidt]
    apply int_wrap_in_range
    · omega
    · unfold INT_MAX at h2 ⊢
      omega

/-- C4 as amended, at a concrete input: the ids in storage are 5, 9, 2 and the new task
gets the id 3, one more than the last id and not one more than the largest. -/
theorem add_one_appends_witness :
    (load_tasks (some sample_tasks) MAX_TASKS).length < MAX_TASKS ∧
    ∃ t : Task,
      (main_add sample_world (some sample_tasks) ["x".toList]).saved
        = some (sample_tasks ++ [t])
      ∧ t.id = 3 ∧ t.done = 0 ∧ t.completed_at = 0 ∧ t.created_at = 1000 := by
  refine ⟨by decide, ?_⟩
  have hlast : (load_tasks (some sample_tasks) MAX_TASKS).getLast?
      = some { id := 2, description := strncpy "task C".toList MAX_DESC, created_at := 12,
               completed_at := 0, due_at := 0, done := 0 } := rfl
  obtain ⟨t, h1, -, h3, h4, h5, h6⟩ :=
    add_one_appends sample_world (some sample_tasks) "x".toList (by decide)
      (fun last hl => by
        rw [hlast] at hl
        simp only [Option.some.injEq] at hl
        subst hl
        decide)
  refine ⟨t, h1, ?_, h4, h5, h6⟩
  rw [h3 _ hlast]
  decide

/-- C5: `add` saves the loaded collection followed by one task for each of the first
`min k (1024 - n)` descriptions, never more than 1024 tasks in all; on a full
collection nothing is appended. -/
theorem add_respects_capacity (w : World) (file : Option (List Task))
    (args : List (List Char)) :
    ∃ new : List Task,
      (main_add w file args).saved = some (load_tasks file MAX_TASKS ++ new)
      ∧ new.length = min args.length (MAX_TASKS - (load_tasks file MAX_TASKS).length)
      ∧ new.map Task.description
          = (args.take new.length).map (fun a => strncpy a MAX_DESC)
      ∧ (load_tasks file MAX_TASKS ++ new).length ≤ MAX_TASKS
      ∧ ((load_tasks file MAX_TASKS).length = MAX_TASKS →
          (main_add w file args).saved = some (load_tasks file MAX_TASKS)) := by
  obtain ⟨new, h1, h2, h3⟩ :=
    add_loop_appends w args (load_tasks file MAX_TASKS) 0 (load_tasks_length file)
  have hl := load_tasks_length file
  refine ⟨new, by simp only [main_add, h1], h2, h3, ?_, ?_⟩
  · rw [List.length_append, h2]; omega
  · intro hfull
    have : new = [] := by
      apply List.eq_nil_of_length_eq_zero
      rw [h2, hfull]; simp
    simp only [main_add, h1, this, List.append_nil]

/-- C6: `done` keeps the number of tasks, their order and the id, description,
created_at and due_at of every task; the first task in storage order with a listed id
ends with done = 1 and completed_at a reading of the clock taken by this run, every
other task is unchanged; an id that no task has changes nothing and the later ids are
still processed. -/
theorem done_changes_only_listed (w : World) (tasks : List Task) (ids : List Int) :
    (done_loop w tasks ids 0).length = tasks.length
    ∧ (∀ (i : Nat) (t : Task), tasks[i]? = some t →
        ∃ t1 : Task, (done_loop w tasks ids 0)[i]? = some t1
          ∧ t1.id = t.id ∧ t1.description = t.description
          ∧ t1.created_at = t.created_at ∧ t1.due_at = t.due_at
          ∧ ((t.id ∈ ids ∧ is_first tasks i t.id = true) →
              t1.done = 1 ∧ ∃ k, k < ids.length ∧ t1.completed_at = w.time k)
          ∧ (¬ (t.id ∈ ids ∧ is_first tasks i t.id = true) → t1 = t))
    ∧ (∀ x : Int, (∀ t ∈ tasks, t.id ≠ x) →
        done_loop w tasks (x :: ids) 0 = done_loop w tasks ids 0) := by
  refine ⟨?_, ?_, fun x hx => done_loop_skip w tasks x ids 0 hx⟩
  · simpa using congrArg List.length (done_loop_ids w ids tasks 0)
  · intro i t hi
    obtain ⟨t1, h1, h2, h3, h4, h5, h6, h7⟩ := done_loop_get w ids tasks 0 i t hi
    refine ⟨t1, h1, h2, h3, h4, h5, fun hc => ?_, h7⟩
    obtain ⟨hd, k, -, hk, hk1⟩ := h6 hc
    exact ⟨hd, k, by omega, hk1⟩

/-- C6, at a concrete input: `done 9 7 2` on `sample_tasks`; the unknown id 7 does not
stop the run, slot 2 (id 2) ends done and slot 0 (id 5) is untouched. -/
theorem done_changes_only_listed_witness :
    (∃ t1 : Task, (done_loop sample_world sample_tasks [9, 7, 2] 0)[2]? = some t1
      ∧ t1.done = 1 ∧ ∃ k, k < 3 ∧ t1.completed_at = sample_world.time k)
    ∧ (done_loop sample_world sample_tasks [9, 7, 2] 0)[0]? = sample_tasks[0]? := by
  have h := (done_changes_only_listed sample_world sample_tasks [9, 7, 2]).2.1
  constructor
  · obtain ⟨t1, h1, -, -, -, -, h6, -⟩ := h 2 _ rfl
    exact ⟨t1, h1, h6 (by decide)⟩
  · obtain ⟨t1, h1, -, -, -, -, -, h7⟩ := h 0 _ rfl
    rw [h1, h7 (by decide)]
    rfl

/-- C7 fails as stated: the first task of `sample_tasks` is done with completed_at 20;
after `done 5` at clock value 1000 its completed_at is 1000. -/
theorem done_again_keeps_time_counterexample :
    sample_tasks.map Task.done = [1, 0, 0]
    ∧ sample_tasks.map Task.completed_at = [20, 0, 0]
    ∧ (done_loop sample_world sample_tasks [5] 0).map Task.completed_at = [1000, 0, 0] := by
  decide

/-- C7 as amended: naming the id of a task again (whether it is done already or not)
sets done = 1 and overwrites completed_at with the clock value of the new marking; the
other fields of the task stay. -/
theorem done_again_restamps (w : World) (tasks : List Task) (i : Nat) (t : Task)
    (hi : tasks[i]? = some t) (hfirst : is_first tasks i t.id = true) :
    (done_loop w tasks [t.id] 0)[i]? = some (stamp t (w.time 0))
    ∧ (stamp t (w.time 0)).done = 1 ∧ (stamp t (w.time 0)).completed_at = w.time 0
    ∧ (stamp t (w.time 0)).id = t.id ∧ (stamp t (w.time 0)).description = t.description
    ∧ (stamp t (w.time 0)).created_at = t.created_at
    ∧ (stamp t (w.time 0)).due_at = t.due_at := by
  refine ⟨?_, rfl, rfl, rfl, rfl, rfl, rfl⟩
  cases hm : mark_done (w.time 0) tasks t.id with
  | none => exact absurd rfl (mark_done_none _ _ _ hm t (List.getElem?_mem hi))
  | some r =>
    have hget := mark_done_get _ _ _ _ hm i t hi
    rw [if_pos ⟨rfl, hfirst⟩] at hget
    simp only [done_loop, hm]
    exact hget

/-- C7 as amended, at a concrete input: the task of `sample_tasks` with id 5, done at
20, is marked again at 1000. -/
theorem done_again_restamps_witness :
    (done_loop sample_world sample_tasks [5] 0)[0]?
      = some { id := 5, description := strncpy "task A".toList MAX_DESC, created_at := 10,
               completed_at := 1000, due_at := 0, done := 1 } :=
  (done_again_restamps sample_world sample_tasks 0 _ rfl (by decide)).1

/-- C8, what the code does: for a text `s` without `*`, `#`, `@` and a token without
blank or tab, the scan of `s`, a space, `@due:` and the token prints `s` followed by
the space; the space in front of the marker is not elided. -/
theorem due_marker_keeps_space (s tok mem : List Char)
    (hs : ∀ c ∈ s, c ≠ '*' ∧ c ≠ '#' ∧ c ≠ '@' ∧ c ≠ NUL)
    (ht : ∀ c ∈ tok, c ≠ ' ' ∧ c ≠ '\t' ∧ c ≠ NUL) :
    print_markdown (s ++ " @due:".toList ++ tok ++ NUL :: mem)
      = .ok (s ++ [' ']) (NUL :: mem) := by
  have e : s ++ " @due:".toList ++ tok ++ NUL :: mem
      = s ++ (' ' :: (DUE_MARK ++ (tok ++ NUL :: mem))) := by
    simp [DUE_MARK]
  rw [e, print_plain s _ hs, print_plain_char ' ' _ (by decide), print_due_at_end tok mem ht]
  rfl

/-- C8, at the input of the specification: `buy milk @due:2025-03-10` is printed as
`buy milk` with the space behind it. -/
theorem due_marker_keeps_space_witness :
    print_markdown ("buy milk @due:2025-03-10".toList ++ [NUL])
      = .ok "buy milk ".toList [NUL] :=
  due_marker_keeps_space "buy milk".toList "2025-03-10".toList [] (by decide) (by decide)

/-- C9: for a text `t` without `*`, `**t**` prints bold-on, `t`, reset and the scan goes
on with the rest; for such a `t` that is not empty `*t*` prints italic-on, `t`, reset
and the scan goes on with the rest; in a description field as `add` fills it,
`**bold** and *italic* and ##hi#` is printed as bold `bold`, ` and `, italic `italic`,
` and `, highlighted `hi`. -/
theorem emphasis_renders (t rest : List Char) (h : ∀ c ∈ t, c ≠ '*' ∧ c ≠ NUL) :
    print_markdown ("**".toList ++ t ++ "**".toList ++ rest)
      = (print_markdown rest).emit (COLOR_BOLD ++ t ++ COLOR_RESET)
    ∧ (t ≠ [] →
        print_markdown ("*".toList ++ t ++ "*".toList ++ rest)
          = (print_markdown rest).emit (COLOR_ITALIC ++ t ++ COLOR_RESET))
    ∧ (print_markdown (strncpy "**bold** and *italic* and ##hi#".toList MAX_DESC)).out
        = some (COLOR_BOLD ++ "bold".toList ++ COLOR_RESET ++ " and ".toList
            ++ COLOR_ITALIC ++ "italic".toList ++ COLOR_RESET ++ " and ".toList
            ++ COLOR_CYAN ++ "hi".toList ++ COLOR_RESET) := by
  refine ⟨?_, fun hne => ?_, ?_⟩
  · have e : "**".toList ++ t ++ "**".toList ++ rest = '*' :: '*' :: (t ++ '*' :: '*' :: rest) := by
      simp
    rw [e, print_bold t rest h]
  · have e : "*".toList ++ t ++ "*".toList ++ rest = '*' :: (t ++ '*' :: rest) := by
      simp
    rw [e, print_italic t rest h hne]
  · set_option maxRecDepth 100000 in decide

/-- C9, at a concrete input: `**bold** and *it*` with its terminator. -/
theorem emphasis_renders_witness :
    print_markdown ("**bold** and *it*".toList ++ [NUL])
      = .ok (COLOR_BOLD ++ "bold".toList ++ COLOR_RESET ++ " and ".toList
          ++ COLOR_ITALIC ++ "it".toList ++ COLOR_RESET) [NUL] := by
  have h1 := (emphasis_renders "bold".toList (" and *it*".toList ++ [NUL]) (by decide)).1
  have h2 := (emphasis_renders "it".toList [NUL] (by decide)).2.1 (by decide)
  have h3 := print_plain " and ".toList ("*it*".toList ++ [NUL]) (by decide)
  have e1 : "**bold** and *it*".toList ++ [NUL]
      = "**".toList ++ "bold".toList ++ "**".toList ++ (" and *it*".toList ++ [NUL]) := by decide
  have e2 : " and *it*".toList ++ [NUL] = " and ".toList ++ ("*it*".toList ++ [NUL]) := by decide
  have e3 : "*it*".toList ++ [NUL] = "*".toList ++ "it".toList ++ "*".toList ++ [NUL] := by decide
  rw [e1, h1, e2, h3, e3, h2, print_nul]
  decide

/-- C10 fails as stated: in `##hi#ab` the scan goes on behind the `a`; the character
that follows the closing hash mark is lost. -/
theorem highlight_close_counterexample :
    print_markdown ("##".toList ++ "hi".toList ++ "#".toList ++ ("ab".toList ++ [NUL]))
      ≠ (print_markdown ("ab".toList ++ [NUL])).emit (COLOR_CYAN ++ "hi".toList ++ COLOR_RESET)
    ∧ print_markdown ("##".toList ++ "hi".toList ++ "#".toList ++ ("ab".toList ++ [NUL]))
      = .ok (COLOR_CYAN ++ "hi".toList ++ COLOR_RESET ++ "b".toList) [NUL] := by
  decide

/-- C10 as amended: a highlight run closes with two hash marks; for a text `t` without
`#`, the scan of `##`, `t`, `##` and the rest prints highlight-on, `t`, reset and goes
on with the whole of the rest. -/
theorem highlight_closes_on_two (t rest : List Char) (h : ∀ x ∈ t, x ≠ '#' ∧ x ≠ NUL) :
    print_markdown ("##".toList ++ t ++ "##".toList ++ rest)
      = (print_markdown rest).emit (COLOR_CYAN ++ t ++ COLOR_RESET) := by
  have e : "##".toList ++ t ++ "##".toList ++ rest = '#' :: '#' :: (t ++ '#' :: '#' :: rest) := by
    simp
  rw [e, print_highlight t '#' rest h]

/-- C10 as amended, at a concrete input: `##hi## x` prints highlighted `hi` and ` x`. -/
theorem highlight_closes_on_two_witness :
    print_markdown ("##hi## x".toList ++ [NUL])
      = .ok (COLOR_CYAN ++ "hi".toList ++ COLOR_RESET ++ " x".toList) [NUL] := by
  have h := highlight_closes_on_two "hi".toList (" x".toList ++ [NUL]) (by decide)
  have e : "##hi## x".toList ++ [NUL]
      = "##".toList ++ "hi".toList ++ "##".toList ++ (" x".toList ++ [NUL]) := by decide
  rw [e, h]
  decide

/-! ## Lemmas on the due-date extractor -/

theorem match_due_here_sound (s d : List Char) (h : match_due_here s = some d) :
    spec_marker_at s 0 d := by
  unfold match_due_here at h
  split at h
  · rename_i a b u e k y1 y2 y3 y4 h1 m1 m2 h2 d1 d2 rest
    split at h
    · rename_i hc
      simp only [Option.some.injEq] at h
      subst h
      obtain ⟨hm, hh1, hh2, hall⟩ := hc
      simp only [List.all_cons, List.all_nil, Bool.and_true, Bool.and_eq_true] at hall
      obtain ⟨g1, g2, g3, g4, g5, g6, g7, g8⟩ := hall
      subst hh1 hh2
      refine ⟨⟨y1, y2, y3, y4, m1, m2, d1, d2, g1, g2, g3, g4, g5, g6, g7, g8, rfl⟩, rest, ?_⟩
      simp only [List.drop_zero, ← hm]
      rfl
    · simp at h
  · simp at h

theorem match_due_here_complete (s d : List Char) (h : spec_marker_at s 0 d) :
    match_due_here s = some d := by
  obtain ⟨⟨y1, y2, y3, y4, m1, m2, d1, d2, g1, g2, g3, g4, g5, g6, g7, g8, rfl⟩, post, hs⟩ := h
  simp only [List.drop_zero] at hs
  subst hs
  have e : DUE_MARK = ['@', 'd', 'u', 'e', ':'] := rfl
  simp [match_due_here, e, g1, g2, g3, g4, g5, g6, g7, g8]

theorem regexec_due_complete (d : List Char) :
    ∀ (s : List Char) (i : Nat), match_due_here (s.drop i) = some d →
      (∀ j, j < i → match_due_here (s.drop j) = none) → regexec_due s = some d := by
  intro s
  induction s with
  | nil => intro i h _; simp [match_due_here] at h
  | cons c cs ih =>
    intro i h hbefore
    cases i with
    | zero =>
      simp only [List.drop_zero] at h
      simp only [regexec_due, h]
    | succ k =>
      have h0 := hbefore 0 (by omega)
      simp only [List.drop_zero] at h0
      simp only [regexec_due, h0]
      apply ih k (by simpa using h)
      intro j hj
      have := hbefore (j + 1) (by omega)
      simpa using this

theorem regexec_due_sound (d : List Char) :
    ∀ s : List Char, regexec_due s = some d →
      ∃ i, match_due_here (s.drop i) = some d
        ∧ ∀ j, j < i → match_due_here (s.drop j) = none := by
  intro s
  induction s with
  | nil => intro h; simp [regexec_due] at h
  | cons c cs ih =>
    intro h
    rw [regexec_due] at h
    cases hm : match_due_here (c :: cs) with
    | some d1 =>
      simp only [hm, Option.some.injEq] at h
      subst h
      exact ⟨0, by simpa using hm, fun j hj => by omega⟩
    | none =>
      simp only [hm] at h
      obtain ⟨i, hi, hbefore⟩ := ih h
      refine ⟨i + 1, by simpa using hi, fun j hj => ?_⟩
      cases j with
      | zero => simpa using hm
      | succ k => simpa using hbefore k (by omega)

theorem regexec_due_none (s : List Char) (h : regexec_due s = none) :
    ∀ i, match_due_here (s.drop i) = none := by
  induction s with
  | nil => intro i; simp [match_due_here]
  | cons c cs ih =>
    rw [regexec_due] at h
    cases hm : match_due_here (c :: cs) with
    | some d1 => simp [hm] at h
    | none =>
      simp only [hm] at h
      intro i
      cases i with
      | zero => simpa using hm
      | succ k => simpa using ih h k

theorem spec_marker_shift (s : List Char) (i : Nat) (d : List Char) :
    spec_marker_at s i d ↔ spec_marker_at (s.drop i) 0 d := by
  simp [spec_marker_at]

theorem strncpy_long (arg : List Char) (n : Nat) (hnul : ∀ c ∈ arg, c ≠ NUL)
    (hlen : n ≤ arg.length) : strncpy arg n = arg.take n := by
  have h1 : arg.takeWhile (fun c => c != NUL) = arg := by
    rw [List.takeWhile_eq_self_iff]
    intro c hc
    simpa using hnul c hc
  simp only [strncpy, h1, List.length_take, Nat.min_eq_left hlen, Nat.sub_self,
    List.replicate_zero, List.append_nil]

theorem strncpy_short (arg : List Char) (n : Nat) (hnul : ∀ c ∈ arg, c ≠ NUL)
    (hlen : arg.length < n) : strncpy arg n = arg ++ List.replicate (n - arg.length) NUL := by
  have h1 : arg.takeWhile (fun c => c != NUL) = arg := by
    rw [List.takeWhile_eq_self_iff]
    intro c hc
    simpa using hnul c hc
  have h2 : arg.take n = arg := List.take_of_length_le (by omega)
  simp only [strncpy, h1, h2]

/-! ## The claims, continued -/

/-- C11 as amended: `parse_due_date` gives 0 when the text of the description holds no
marker `@due:` followed by 4 digits, `-`, 2 digits, `-`, 2 digits; otherwise it gives
the time that the library computes for the date text of the leftmost marker; a result
other than 0 comes from a marker. -/
theorem due_date_from_leftmost_marker (w : World) (desc : List Char) :
    ((∀ i d, ¬ spec_marker_at (desc.takeWhile (fun c => c != NUL)) i d) →
        parse_due_date w desc = 0)
    ∧ (∀ i d, spec_marker_at (desc.takeWhile (fun c => c != NUL)) i d →
        (∀ j d1, j < i → ¬ spec_marker_at (desc.takeWhile (fun c => c != NUL)) j d1) →
        parse_due_date w desc = w.mktime d)
    ∧ (parse_due_date w desc ≠ 0 →
        ∃ i d, spec_marker_at (desc.takeWhile (fun c => c != NUL)) i d) := by
  refine ⟨fun hno => ?_, fun i d hm hleft => ?_, fun hne => ?_⟩
  · cases hr : regexec_due (desc.takeWhile (fun c => c != NUL)) with
    | none => simp only [parse_due_date, hr]
    | some d =>
      obtain ⟨i, hi, -⟩ := regexec_due_sound d _ hr
      exact absurd ((spec_marker_shift _ i d).mpr (match_due_here_sound _ d hi)) (hno i d)
  · have h1 := match_due_here_complete _ d ((spec_marker_shift _ i d).mp hm)
    have h2 : ∀ j, j < i →
        match_due_here ((desc.takeWhile (fun c => c != NUL)).drop j) = none := by
      intro j hj
      cases hc : match_due_here ((desc.takeWhile (fun c => c != NUL)).drop j) with
      | none => rfl
      | some d1 =>
        exact absurd ((spec_marker_shift _ j d1).mpr (match_due_here_sound _ d1 hc))
          (hleft j d1 hj)
    simp only [parse_due_date, regexec_due_complete d _ i h1 h2]
  · cases hr : regexec_due (desc.takeWhile (fun c => c != NUL)) with
    | none => simp [parse_due_date, hr] at hne
    | some d =>
      obtain ⟨i, hi, -⟩ := regexec_due_sound d _ hr
      exact ⟨i, d, (spec_marker_shift _ i d).mpr (match_due_here_sound _ d hi)⟩

/-- C11 fails as stated: in the time zone UTC the description `x @due:1970-01-01`
holds a marker and the task gets due_at 0, the value of a task without a due date. -/
theorem due_date_zero_counterexample :
    spec_marker_at "x @due:1970-01-01".toList 2 "1970-01-01".toList
    ∧ parse_due_date utc_world (strncpy "x @due:1970-01-01".toList MAX_DESC) = 0 := by
  refine ⟨⟨⟨'1', '9', '7', '0', '0', '1', '0', '1', by decide, by decide, by decide,
    by decide, by decide, by decide, by decide, by decide, rfl⟩, [], by decide⟩, ?_⟩
  set_option maxRecDepth 100000 in decide

/-- C11 as amended, at the input of the specification with a second marker behind it:
`buy milk @due:2025-03-10 @due:2026-01-01` gives the time of the date text
`2025-03-10`, the later marker is not looked at. -/
theorem due_date_from_leftmost_marker_witness :
    parse_due_date sample_world ("buy milk @due:2025-03-10 @due:2026-01-01".toList ++ [NUL])
      = sample_world.mktime "2025-03-10".toList := by
  have hs : ("buy milk @due:2025-03-10 @due:2026-01-01".toList ++ [NUL]).takeWhile
      (fun c => c != NUL) = "buy milk @due:2025-03-10 @due:2026-01-01".toList := by decide
  have h := (due_date_from_leftmost_marker sample_world
    ("buy milk @due:2025-03-10 @due:2026-01-01".toList ++ [NUL])).2.1 9 "2025-03-10".toList
  rw [hs] at h
  apply h
  · exact ⟨⟨'2', '0', '2', '5', '0', '3', '1', '0', by decide, by decide, by decide,
      by decide, by decide, by decide, by decide, by decide, rfl⟩,
      " @due:2026-01-01".toList, by decide⟩
  · intro j d1 hj hm
    have hc := match_due_here_complete _ d1 ((spec_marker_shift _ j d1).mp hm)
    interval_cases j <;> simp [match_due_here, DUE_MARK] at hc

/-- C12, what the code does: for an argument of 512 bytes or more the description
field of the new task holds the first 512 bytes of the argument and no terminator; a
shorter argument is stored whole and padded with terminators. -/
theorem long_description_unterminated (w : World) (tasks : List Task) (arg : List Char)
    (now : Int) (hnul : ∀ c ∈ arg, c ≠ NUL) :
    ∃ t : Task, add_task w tasks arg now = tasks ++ [t]
      ∧ (MAX_DESC ≤ arg.length →
          t.description = arg.take MAX_DESC ∧ t.description.length = MAX_DESC
            ∧ ∀ c ∈ t.description, c ≠ NUL)
      ∧ (arg.length < MAX_DESC →
          t.description = arg ++ List.replicate (MAX_DESC - arg.length) NUL) := by
  obtain ⟨t, ht, -, hdesc, -⟩ := add_task_eq w tasks arg now
  refine ⟨t, ht, fun hlen => ?_, fun hlen => ?_⟩
  · rw [hdesc, strncpy_long arg MAX_DESC hnul hlen]
    refine ⟨rfl, by simpa using hlen, fun c hc => hnul c (List.mem_of_mem_take hc)⟩
  · rw [hdesc, strncpy_short arg MAX_DESC hnul hlen]

/-- C12, at a concrete input: an argument of 512 letters `a` fills the field, no byte
of which is a terminator. -/
theorem long_description_unterminated_witness :
    ∃ t : Task, add_task sample_world [] (List.replicate MAX_DESC 'a') 1000 = [] ++ [t]
      ∧ t.description = List.replicate MAX_DESC 'a' ∧ ∀ c ∈ t.description, c ≠ NUL := by
  have hnul : ∀ c ∈ List.replicate MAX_DESC 'a', c ≠ NUL := by
    intro c hc
    rw [List.eq_of_mem_replicate hc]
    decide
  obtain ⟨t, h1, h2, -⟩ :=
    long_description_unterminated sample_world [] (List.replicate MAX_DESC 'a') 1000 hnul
  have h3 := h2 (List.length_replicate MAX_DESC 'a').ge
  refine ⟨t, h1, ?_, h3.2.2⟩
  rw [h3.1]
  exact List.take_of_length_le (List.length_replicate MAX_DESC 'a').le

/-! ## Lemmas on listing and statistics -/

theorem list_loop_eq_filter (due completed pending : Bool) (arr : List Task) :
    list_loop due completed pending arr
      = arr.filter (fun t =>
          (!due || (t.due_at != 0 && t.done == 0))
            && (!completed || t.done != 0) && (!pending || t.done == 0)) := by
  induction arr with
  | nil => rfl
  | cons t ts ih =>
    rw [list_loop, ih]
    by_cases h1 : t.due_at = 0 <;> by_cases h2 : t.done = 0 <;>
      cases due <;> cases completed <;> cases pending <;> simp [h1, h2]

theorem parse_due_flag :
    parse_list_args ["--due".toList]
        { raw := false, due := false, completed := false, pending := false,
          sort_key := SortKey.SORT_NONE }
      = some { raw := false, due := true, completed := false, pending := false,
               sort_key := SortKey.SORT_NONE } := by
  decide

theorem cmp_due_le (a b : Task) (h : cmp_due a b ≤ 0) :
    b.due_at ≠ 0 → a.due_at ≠ 0 ∧ a.due_at ≤ b.due_at := by
  intro hb
  unfold cmp_due cmp3 at h
  split_ifs at h <;> omega

theorem cmp_completed_le (a b : Task) (h : cmp_completed a b ≤ 0) :
    b.done ≠ 0 → a.done ≠ 0 ∧ a.completed_at ≤ b.completed_at := by
  intro hb
  unfold cmp_completed cmp3 at h
  split_ifs at h <;> omega

theorem status_overdue_iff (now : Int) (t : Task) :
    status_marker now t = "[*]".toList ↔ t.done = 0 ∧ t.due_at ≠ 0 ∧ t.due_at < now := by
  have e1 : "[x]".toList ≠ "[*]".toList := by decide
  have e2 : "[ ]".toList ≠ "[*]".toList := by decide
  unfold status_marker
  split_ifs with h1 h2
  · exact ⟨fun h => absurd h e1, fun h => absurd h.1 h1⟩
  · have h3 := of_decide_eq_true h2
    exact ⟨fun _ => ⟨h3.1, h3.2.1, h3.2.2⟩, fun _ => rfl⟩
  · refine ⟨fun h => absurd h e2, fun h => ?_⟩
    exact absurd (decide_eq_true (show t.done = 0 ∧ t.due_at ≠ 0 ∧ now > t.due_at from
      ⟨h.1, h.2.1, h.2.2⟩)) h2

theorem stats_step_overdue (now : Int) (s : Stats) (t : Task) :
    (stats_step now s t).overdue
      = s.overdue + (if status_marker now t = "[*]".toList then 1 else 0) := by
  have hov : (stats_step now s t).overdue
      = if t.done ≠ 0 then s.overdue
        else if t.due_at ≠ 0 ∧ t.due_at < now then s.overdue + 1 else s.overdue := rfl
  rw [hov]
  by_cases hm : status_marker now t = "[*]".toList
  · have h := (status_overdue_iff now t).mp hm
    rw [if_pos hm, if_neg (not_not.mpr h.1), if_pos ⟨h.2.1, h.2.2⟩]
  · have h := mt (status_overdue_iff now t).mpr hm
    rw [if_neg hm]
    split_ifs with a b
    · omega
    · exact absurd ⟨not_not.mp a, b⟩ h
    · omega

theorem stats_loop_overdue (now : Int) (tasks : List Task) :
    ∀ s : Stats, (stats_loop now tasks s).overdue
      = s.overdue
        + ((tasks.filter (fun t => decide (status_marker now t = "[*]".toList))).length : Int) := by
  induction tasks with
  | nil => intro s; simp [stats_loop]
  | cons t ts ih =>
    intro s
    rw [stats_loop, ih, stats_step_overdue, List.filter_cons]
    by_cases hm : status_marker now t = "[*]".toList
    · rw [if_pos hm, if_pos (decide_eq_true hm), List.length_cons]
      push_cast
      omega
    · rw [if_neg hm, if_neg (fun h => hm (of_decide_eq_true h))]
      omega

theorem stats_loop_next_due (now : Int) (tasks : List Task) :
    ∀ s : Stats,
      ((stats_loop now tasks s).next_due = s.next_due
        ∨ ∃ t ∈ tasks, t.due_at ≠ 0 ∧ t.done = 0 ∧ (stats_loop now tasks s).next_due = t.due_at)
      ∧ (∀ t ∈ tasks, t.due_at ≠ 0 → t.done = 0 →
          (stats_loop now tasks s).next_due ≠ 0 ∧ (stats_loop now tasks s).next_due ≤ t.due_at)
      ∧ (s.next_due ≠ 0 →
          (stats_loop now tasks s).next_due ≠ 0
            ∧ (stats_loop now tasks s).next_due ≤ s.next_due) := by
  induction tasks with
  | nil => intro s; simp [stats_loop]
  | cons t ts ih =>
    intro s
    rw [stats_loop]
    have hn : (stats_step now s t).next_due
        = if t.due_at ≠ 0 ∧ (s.next_due = 0 ∨ t.due_at < s.next_due) ∧ t.done = 0
          then t.due_at else s.next_due := rfl
    obtain ⟨h1, h2, h3⟩ := ih (stats_step now s t)
    refine ⟨?_, ?_, ?_⟩
    · rcases h1 with h | ⟨u, hu, hu1, hu2, hu3⟩
      · by_cases hc : t.due_at ≠ 0 ∧ (s.next_due = 0 ∨ t.due_at < s.next_due) ∧ t.done = 0
        · exact Or.inr ⟨t, List.mem_cons_self _ _, hc.1, hc.2.2, by rw [h, hn, if_pos hc]⟩
        · exact Or.inl (by rw [h, hn, if_neg hc])
      · exact Or.inr ⟨u, List.mem_cons_of_mem _ hu, hu1, hu2, hu3⟩
    · intro u hu hu1 hu2
      rcases List.mem_cons.mp hu with rfl | hmem
      · have hs1n : (stats_step now s u).next_due ≠ 0
            ∧ (stats_step now s u).next_due ≤ u.due_at := by
          rw [hn]
          split
          · exact ⟨hu1, le_refl _⟩
          · rename_i hc
            have : ¬ (s.next_due = 0 ∨ u.due_at < s.next_due) := fun h => hc ⟨hu1, h, hu2⟩
            rw [not_or] at this
            exact ⟨this.1, by omega⟩
        have := h3 hs1n.1
        exact ⟨this.1, by omega⟩
      · exact h2 u hmem hu1 hu2
    · intro hne
      have hs1n : (stats_step now s t).next_due ≠ 0
          ∧ (stats_step now s t).next_due ≤ s.next_due := by
        rw [hn]
        split
        · rename_i hc
          refine ⟨hc.1, ?_⟩
          rcases hc.2.1 with h | h
          · exact absurd h hne
          · omega
        · exact ⟨hne, le_refl _⟩
      have := h3 hs1n.1
      exact ⟨this.1, by omega⟩

theorem bold_run_nul (t rest : List Char) (h : ∀ c ∈ t, c ≠ '*' ∧ c ≠ NUL) :
    bold_run (t ++ NUL :: rest) = some (t, NUL :: rest) := by
  induction t with
  | nil => simp [bold_run]
  | cons c cs ih =>
    have hc := h c (List.mem_cons_self _ _)
    have ih1 := ih (fun x hx => h x (List.mem_cons_of_mem _ hx))
    simp [bold_run, hc.1, hc.2, ih1]

/-- C14 fails as stated: of `sample_listing` the tasks 1, 2 and 4 have a due date, and
`list --due` prints the tasks 2 and 4 only; task 1 is done. -/
theorem list_due_hides_done_counterexample :
    (sample_listing.filter (fun t => decide (t.due_at ≠ 0))).map Task.id = [1, 2, 4]
    ∧ (main_list (fun _ l => l) (some sample_listing) ["--due".toList]).printed.map Task.id
        = [2, 4] := by
  decide

/-- C14 as amended: `list --due` with no other flag prints exactly the tasks that have
a due date and are not done, in storage order. -/
theorem list_due_prints_pending_due (qsort : (Task → Task → Int) → List Task → List Task)
    (file : Option (List Task)) :
    (main_list qsort file ["--due".toList]).printed
      = (load_tasks file MAX_TASKS).filter (fun t => decide (t.due_at ≠ 0 ∧ t.done = 0)) := by
  simp only [main_list, parse_due_flag]
  split
  · rename_i h
    rw [List.length_eq_zero] at h
    rw [h]
    rfl
  · simp only [sort_step, list_loop_eq_filter]
    congr 1
    funext t
    by_cases h1 : t.due_at = 0 <;> by_cases h2 : t.done = 0 <;> simp [h1, h2]

theorem cmp_due_total (a b : Task) : cmp_due a b ≤ 0 ∨ cmp_due b a ≤ 0 := by
  simp only [cmp_due, cmp3]
  split_ifs <;> omega

theorem cmp_due_trans (a b c : Task) (h1 : cmp_due a b ≤ 0) (h2 : cmp_due b c ≤ 0) :
    cmp_due a c ≤ 0 := by
  simp only [cmp_due, cmp3] at h1 h2 ⊢
  split_ifs at h1 h2 ⊢ <;> omega

theorem cmp_completed_total (a b : Task) : cmp_completed a b ≤ 0 ∨ cmp_completed b a ≤ 0 := by
  simp only [cmp_completed, cmp3]
  split_ifs <;> omega

theorem cmp_completed_trans (a b c : Task) (h1 : cmp_completed a b ≤ 0)
    (h2 : cmp_completed b c ≤ 0) : cmp_completed a c ≤ 0 := by
  simp only [cmp_completed, cmp3] at h1 h2 ⊢
  split_ifs at h1 h2 ⊢ <;> omega

/-- The promise of `qsort` is kept by the insertion sort for `cmp_due` on every
collection: the comparison is total and transitive. -/
theorem insertion_qsort_due (tasks : List Task) :
    qsort_result cmp_due tasks (insertion_qsort cmp_due tasks) := by
  have htotal : IsTotal Task (fun a b => cmp_due a b ≤ 0) := ⟨cmp_due_total⟩
  have htrans : IsTrans Task (fun a b => cmp_due a b ≤ 0) := ⟨cmp_due_trans⟩
  exact ⟨List.perm_insertionSort _ tasks, List.sorted_insertionSort _ tasks⟩

/-- The promise of `qsort` is kept by the insertion sort for `cmp_completed` on every
collection. -/
theorem insertion_qsort_completed (tasks : List Task) :
    qsort_result cmp_completed tasks (insertion_qsort cmp_completed tasks) := by
  have htotal : IsTotal Task (fun a b => cmp_completed a b ≤ 0) := ⟨cmp_completed_total⟩
  have htrans : IsTrans Task (fun a b => cmp_completed a b ≤ 0) := ⟨cmp_completed_trans⟩
  exact ⟨List.perm_insertionSort _ tasks, List.sorted_insertionSort _ tasks⟩

theorem list_loop_no_filter (arr : List Task) : list_loop false false false arr = arr := by
  rw [list_loop_eq_filter]
  simp

theorem parse_sort_due :
    parse_list_args ["--sort=due".toList]
        { raw := false, due := false, completed := false, pending := false,
          sort_key := SortKey.SORT_NONE }
      = some { raw := false, due := false, completed := false, pending := false,
               sort_key := SortKey.SORT_DUE } := by
  decide

theorem parse_sort_completed :
    parse_list_args ["--sort=completed".toList]
        { raw := false, due := false, completed := false, pending := false,
          sort_key := SortKey.SORT_NONE }
      = some { raw := false, due := false, completed := false, pending := false,
               sort_key := SortKey.SORT_COMPLETED } := by
  decide

/-- What `list --sort=due` prints: nothing for an empty collection, otherwise the array
that `qsort` leaves for `cmp_due`. -/
theorem main_list_sort_due (qsort : (Task → Task → Int) → List Task → List Task)
    (file : Option (List Task)) :
    (main_list qsort file ["--sort=due".toList]).printed
      = if (load_tasks file MAX_TASKS).length = 0 then []
        else qsort cmp_due (load_tasks file MAX_TASKS) := by
  simp only [main_list, parse_sort_due]
  split
  · rfl
  · simp only [sort_step, list_loop_no_filter]

/-- What `list --sort=completed` prints. -/
theorem main_list_sort_completed (qsort : (Task → Task → Int) → List Task → List Task)
    (file : Option (List Task)) :
    (main_list qsort file ["--sort=completed".toList]).printed
      = if (load_tasks file MAX_TASKS).length = 0 then []
        else qsort cmp_completed (load_tasks file MAX_TASKS) := by
  simp only [main_list, parse_sort_completed]
  split
  · rfl
  · simp only [sort_step, list_loop_no_filter]

/-- C15: when `qsort` keeps its promise for `cmp_due` and `cmp_completed`, the tasks
that `list --sort=due` prints are a permutation of the loaded collection in which
every task with a due date stands in front of every task without one and the due
dates ascend, and the tasks that `list --sort=completed` prints are a permutation in
which every done task stands in front of every task that is not done and the completion
times of the done tasks ascend; the two orders hold in any list that is sorted with
respect to the two comparisons. -/
theorem absent_values_sort_last (qsort : (Task → Task → Int) → List Task → List Task)
    (file : Option (List Task))
    (hdue : ∀ tasks, qsort_result cmp_due tasks (qsort cmp_due tasks))
    (hcompleted : ∀ tasks, qsort_result cmp_completed tasks (qsort cmp_completed tasks)) :
    (main_list qsort file ["--sort=due".toList]).printed.Pairwise
        (fun a b => b.due_at ≠ 0 → a.due_at ≠ 0 ∧ a.due_at ≤ b.due_at)
    ∧ (main_list qsort file ["--sort=due".toList]).printed.Perm (load_tasks file MAX_TASKS)
    ∧ (main_list qsort file ["--sort=completed".toList]).printed.Pairwise
        (fun a b => b.done ≠ 0 → a.done ≠ 0 ∧ a.completed_at ≤ b.completed_at)
    ∧ (main_list qsort file ["--sort=completed".toList]).printed.Perm
        (load_tasks file MAX_TASKS)
    ∧ (∀ l : List Task, l.Pairwise (fun a b => cmp_due a b ≤ 0) →
        l.Pairwise (fun a b => b.due_at ≠ 0 → a.due_at ≠ 0 ∧ a.due_at ≤ b.due_at))
    ∧ (∀ l : List Task, l.Pairwise (fun a b => cmp_completed a b ≤ 0) →
        l.Pairwise (fun a b => b.done ≠ 0 → a.done ≠ 0 ∧ a.completed_at ≤ b.completed_at)) := by
  have gdue : ∀ l : List Task, l.Pairwise (fun a b => cmp_due a b ≤ 0) →
      l.Pairwise (fun a b => b.due_at ≠ 0 → a.due_at ≠ 0 ∧ a.due_at ≤ b.due_at) :=
    fun l hl => hl.imp (fun h => cmp_due_le _ _ h)
  have gcompleted : ∀ l : List Task, l.Pairwise (fun a b => cmp_completed a b ≤ 0) →
      l.Pairwise (fun a b => b.done ≠ 0 → a.done ≠ 0 ∧ a.completed_at ≤ b.completed_at) :=
    fun l hl => hl.imp (fun h => cmp_completed_le _ _ h)
  rw [main_list_sort_due, main_list_sort_completed]
  by_cases he : (load_tasks file MAX_TASKS).length = 0
  · rw [if_pos he, if_pos he, List.length_eq_zero.mp he]
    exact ⟨List.Pairwise.nil, List.Perm.refl _, List.Pairwise.nil, List.Perm.refl _,
      gdue, gcompleted⟩
  · rw [if_neg he, if_neg he]
    exact ⟨gdue _ (hdue _).2, (hdue _).1, gcompleted _ (hcompleted _).2, (hcompleted _).1,
      gdue, gcompleted⟩

/-- C15, at a concrete input: with the insertion sort for `qsort`, `list --sort=due`
prints the tasks of `sample_listing` in the order 4, 2, 1, 3 (due dates 100, 200, 300,
none) and `list --sort=completed` prints the done task 1 first. -/
theorem absent_values_sort_last_witness :
    (main_list insertion_qsort (some sample_listing) ["--sort=due".toList]).printed.map
        Task.id = [4, 2, 1, 3]
    ∧ (main_list insertion_qsort (some sample_listing)
        ["--sort=completed".toList]).printed.map Task.id = [1, 2, 3, 4]
    ∧ (main_list insertion_qsort (some sample_listing) ["--sort=due".toList]).printed.Pairwise
        (fun a b => b.due_at ≠ 0 → a.due_at ≠ 0 ∧ a.due_at ≤ b.due_at)
    ∧ (main_list insertion_qsort (some sample_listing) ["--sort=due".toList]).printed.Perm
        (load_tasks (some sample_listing) MAX_TASKS) := by
  have h := absent_values_sort_last insertion_qsort (some sample_listing)
    insertion_qsort_due insertion_qsort_completed
  exact ⟨by decide, by decide, h.1, h.2.1⟩

/-- C16: the overdue counter of `stats` is the number of tasks that `print_task` marks
`[*]` at the same time `now`; these are the tasks that are not done, have a due date and
have it before `now`; a done task is marked `[x]`. -/
theorem overdue_count_agrees (now : Int) (tasks : List Task) :
    (stats now tasks).overdue
      = ((tasks.filter (fun t => decide (status_marker now t = "[*]".toList))).length : Int)
    ∧ (∀ t : Task, status_marker now t = "[*]".toList
        ↔ t.done = 0 ∧ t.due_at ≠ 0 ∧ t.due_at < now)
    ∧ (∀ t : Task, t.done ≠ 0 → status_marker now t = "[x]".toList) := by
  refine ⟨?_, status_overdue_iff now, fun t h => ?_⟩
  · rw [stats, stats_loop_overdue]
    simp
  · simp [status_marker, h]

/-- C17 fails as stated: at the time 500 no pending task of `sample_listing` has a due
date that is still to come, and `stats` reports the due date 100 of the overdue task 4. -/
theorem next_due_overdue_counterexample :
    sample_listing.filter (fun t => decide (t.done = 0 ∧ t.due_at ≠ 0 ∧ t.due_at ≥ 500)) = []
    ∧ (stats 500 sample_listing).next_due = 100
    ∧ (stats 500 sample_listing).overdue = 2 := by
  decide

/-- C17 as amended: `next_due` is the smallest due date among the tasks that have a due
date and are not done, whether it lies before `now` or not, and it is 0 (printed as
`none`) when there is no such task. -/
theorem next_due_is_earliest_pending (now : Int) (tasks : List Task) :
    ((∀ t ∈ tasks, ¬ (t.due_at ≠ 0 ∧ t.done = 0)) → (stats now tasks).next_due = 0)
    ∧ (∀ u ∈ tasks, u.due_at ≠ 0 → u.done = 0 →
        (∃ t ∈ tasks, t.due_at ≠ 0 ∧ t.done = 0 ∧ (stats now tasks).next_due = t.due_at)
          ∧ (stats now tasks).next_due ≠ 0 ∧ (stats now tasks).next_due ≤ u.due_at) := by
  obtain ⟨h1, h2, -⟩ := stats_loop_next_due now tasks { done := 0, overdue := 0, next_due := 0 }
  refine ⟨fun hno => ?_, fun u hu hu1 hu2 => ?_⟩
  · rcases h1 with h | ⟨t, ht, ht1, ht2, -⟩
    · exact h
    · exact absurd ⟨ht1, ht2⟩ (hno t ht)
  · obtain ⟨hne, hle⟩ := h2 u hu hu1 hu2
    refine ⟨?_, hne, hle⟩
    rcases h1 with h | h
    · exact absurd h hne
    · exact h

/-- C17 as amended, at a concrete input: for `sample_listing` the value is 100, the due
date of task 4, at any time. -/
theorem next_due_is_earliest_pending_witness :
    (stats 500 sample_listing).next_due ≠ 0 ∧ (stats 500 sample_listing).next_due ≤ 100 :=
  ((next_due_is_earliest_pending 500 sample_listing).2 (listing_task 4 35 0 100 0)
    (by simp [sample_listing]) (by decide) (by decide)).2

/-- C18, what the code does: `add` without a description exits with code 0 and calls
`save_tasks` with the loaded collection, so a missing storage file is created; `done`,
`remove` and `search` without an argument exit with code 1 and leave the storage
alone. -/
theorem add_without_argument_saves (w : World) (file : Option (List Task)) :
    main_add w file [] = { exit_code := 0, saved := some (load_tasks file MAX_TASKS) }
    ∧ file_after none (main_add w none []) = some []
    ∧ main_done w file [] = { exit_code := 1, saved := none }
    ∧ main_remove file [] = { exit_code := 1, saved := none }
    ∧ main_search file [] = { exit_code := 1, saved := none }
    ∧ file_after file (main_done w file []) = file
    ∧ file_after file (main_remove file []) = file
    ∧ file_after file (main_search file []) = file :=
  ⟨rfl, rfl, rfl, rfl, rfl, rfl, rfl, rfl⟩

/-- C19: for a collection of at most 1024 tasks, loading the file that `save_tasks`
writes gives the collection back, so saving it again writes the same file; loading a
missing file gives the empty collection. -/
theorem save_load_round_trip (tasks : List Task) (h : tasks.length ≤ MAX_TASKS) :
    load_tasks (save_tasks tasks) MAX_TASKS = tasks
    ∧ save_tasks (load_tasks (save_tasks tasks) MAX_TASKS) = save_tasks tasks
    ∧ load_tasks none MAX_TASKS = [] := by
  have h1 : load_tasks (save_tasks tasks) MAX_TASKS = tasks := by
    simp only [save_tasks, load_tasks]
    exact List.take_of_length_le h
  exact ⟨h1, by rw [h1], rfl⟩

/-- C19, at a concrete input: the three tasks of `sample_tasks`. -/
theorem save_load_round_trip_witness :
    sample_tasks.length ≤ MAX_TASKS
    ∧ load_tasks (save_tasks sample_tasks) MAX_TASKS = sample_tasks :=
  ⟨by decide, (save_load_round_trip sample_tasks (by decide)).1⟩

/-- C20, what the code does: behind an unterminated `**` the scan steps over the
terminator.  In a buffer that ends with the terminator it leaves the buffer; in a
longer buffer it skips the terminator and the byte behind it and goes on with the bytes
that follow. -/
theorem unterminated_bold_overruns (t : List Char) (h : ∀ c ∈ t, c ≠ '*' ∧ c ≠ NUL) :
    print_markdown ("**".toList ++ t ++ [NUL]) = .oob
    ∧ ∀ (a : Char) (mem : List Char),
        print_markdown ("**".toList ++ t ++ NUL :: a :: mem)
          = (print_markdown mem).emit (COLOR_BOLD ++ t ++ COLOR_RESET) := by
  constructor
  · have e : "**".toList ++ t ++ [NUL] = '*' :: '*' :: (t ++ [NUL]) := by simp
    have hb : print_markdown_body ('*' :: '*' :: (t ++ [NUL])) ('*' :: '*' :: (t ++ [NUL]))
        = none := by
      simp [print_markdown_body, peek_next, bold_branch, advance, bold_run_nul t [] h]
    rw [e, print_markdown, print_markdown_loop]
    simp only [List.head?_cons, hb]
    rfl
  · intro a mem
    have e : "**".toList ++ t ++ NUL :: a :: mem = '*' :: '*' :: (t ++ NUL :: a :: mem) := by
      simp
    rw [e]
    apply print_step _ _ _ _ (by decide)
    simp [print_markdown_body, peek_next, bold_branch, advance, bold_run_nul t _ h]

/-- C20, at a concrete input: `**abc` has length 5.  With its terminator alone the scan
leaves the buffer; in the description field it ends 7 bytes into the field, and so do
the scans of `abc*` (one byte behind the terminator) and of `##hi#`. -/
theorem unterminated_bold_overruns_witness :
    print_markdown ("**abc".toList ++ [NUL]) = .oob
    ∧ print_markdown (strncpy "**abc".toList MAX_DESC)
        = .ok (COLOR_BOLD ++ "abc".toList ++ COLOR_RESET) (List.replicate (MAX_DESC - 7) NUL)
    ∧ print_markdown ("abc*".toList ++ [NUL]) = .oob
    ∧ print_markdown ("##hi#".toList ++ [NUL]) = .oob := by
  refine ⟨(unterminated_bold_overruns "abc".toList (by decide)).1, ?_, by decide, by decide⟩
  set_option maxRecDepth 100000 in decide

end Now
